import Mathlib

/-!
# Concurrent crawler (`play/concurrency/crawler/solution2/crawler2.go`)

A shallow embedding of `Crawl` and of the test double `fakeFetcher`.

* A Go `map[string]T` is an association list with unique keys (`GoMap`).
* A Go `error` is `Option String`: `none` is `nil`, `some msg` is an error
  whose `Error()` text is `msg`.  A nil slice is the empty list.
* Go's `int` is modelled by `Int`.  The only arithmetic is `fetching++`,
  `fetching--` and `res.depth-1` under the guard `res.depth > 0`; the last
  cannot wrap, and the counter is bounded by the number of goroutines.
* A fetcher is a function of the url, as `fakeFetcher` is; the stored
  pointers of a `fakeFetcher` are not nil, as in `fetcher`.
* A line of output is one call of `fmt.Println` or `fmt.Printf`.
* The goroutines started by `go fetch(url, depth)` that have not yet handed
  their result to the coordinator are kept in the list `inflight`.  The
  receive `<-results` may take the result of any of them: the choice is an
  index into `inflight`, and an arrival order is a list of such indices.
-/

namespace Crawler

/-! ## Data model -/

/-- A Go map with string keys: association list, most recent key first. -/
abbrev GoMap (α : Type) := List (String × α)

/-- The index expression `m[k]` on a `map[string]bool`: the stored value, or
the zero value `false` when the key is absent. -/
def mapIndex (m : GoMap Bool) (k : String) : Bool :=
  match m.lookup k with
  | some b => b
  | none => false

/-- The assignment `m[k] = v`: the entry for `k` is replaced or created. -/
def mapAssign {α : Type} (m : GoMap α) (k : String) (v : α) : GoMap α :=
  (k, v) :: m.filter (fun e => e.1 != k)

/-- The three values returned by `Fetcher.Fetch`. -/
structure FetchReply where
  body : String
  urls : List String
  err : Option String
deriving DecidableEq

/-- The `Fetcher` interface: its single method `Fetch`, as a function of the
url.  Every call returns. -/
abbrev Fetcher := String → FetchReply

/-- The struct `result`. -/
structure result where
  url : String
  body : String
  urls : List String
  err : Option String
  depth : Int
deriving DecidableEq

/-- One line written to standard output. -/
inductive Line where
  /-- The line written by `fmt.Printf("found: %s %q\n", res.url, res.body)`. -/
  | found (url body : String)
  /-- The line written by `fmt.Println(res.err)`. -/
  | diag (msg : String)
deriving DecidableEq

/-- The text of a line; `quote` is the formatting of the verb `%q`. -/
def Line.render (quote : String → String) : Line → String
  | .found url body => "found: " ++ url ++ " " ++ quote body ++ "\n"
  | .diag msg => msg ++ "\n"

/-- History record of one call of `dispatch`: its arguments, the value of
`fetched[url]` immediately before the call, and the outcome whose processing
made the call (`none` for the call before the loop). -/
structure Launch where
  url : String
  depth : Int
  marked : Bool
  parent : Option result
deriving DecidableEq

/-- The variables of `Crawl` at a loop head, with the output written so far.
`launches` and `consumed` are history variables: every call of `dispatch` and
every outcome received, in order. -/
structure CrawlState where
  fetching : Int
  fetched : GoMap Bool
  inflight : List (String × Int)
  stdout : List Line
  closed : Bool
  launches : List Launch
  consumed : List result
deriving DecidableEq

/-! ## `Crawl` -/

/-- The closure `fetch`: the body of one goroutine, up to the send. -/
def fetch (fetcher : Fetcher) (url : String) (depth : Int) : result :=
  let r := fetcher url
  { url := url, body := r.body, urls := r.urls, err := r.err, depth := depth }

/-- The closure `dispatch`; `parent` only feeds the history. -/
def dispatch (parent : Option result) (url : String) (depth : Int)
    (s : CrawlState) : CrawlState :=
  { s with
    fetching := s.fetching + 1
    inflight := s.inflight ++ [(url, depth)]
    fetched := mapAssign s.fetched url true
    launches := s.launches ++
      [{ url := url, depth := depth, marked := mapIndex s.fetched url, parent := parent }] }

/-- The inner loop `for _, u := range res.urls`. -/
def follow (res : result) : CrawlState → List String → CrawlState
  | s, [] => s
  | s, u :: us =>
    if mapIndex s.fetched u then follow res s us
    else follow res (dispatch (some res) u (res.depth - 1) s) us

/-- The loop body after the receive. -/
def process (res : result) (s : CrawlState) : CrawlState :=
  let s := { s with fetching := s.fetching - 1, consumed := s.consumed ++ [res] }
  match res.err with
  | some msg => { s with stdout := s.stdout ++ [Line.diag msg] }
  | none =>
    let s := { s with stdout := s.stdout ++ [Line.found res.url res.body] }
    if res.depth ≤ 0 then s else follow res s res.urls

/-- The receive `res := <-results` when the goroutine at index `i` of
`inflight` is the one whose send is taken; `none` when there is no such
goroutine (the receive would block). -/
def receive (fetcher : Fetcher) (s : CrawlState) (i : Nat) : Option (result × CrawlState) :=
  match s.inflight.get? i with
  | some p => some (fetch fetcher p.1 p.2, { s with inflight := s.inflight.eraseIdx i })
  | none => none

/-- One iteration of `for fetching > 0`; `none` when the loop condition is
false or the receive cannot take outcome `i`. -/
def iteration (fetcher : Fetcher) (s : CrawlState) (i : Nat) : Option CrawlState :=
  if 0 < s.fetching then
    match receive fetcher s i with
    | some (res, s1) => some (process res s1)
    | none => none
  else none

/-- The state reached at the loop head after the iterations chosen by
`order`, one index per iteration. -/
def loop (fetcher : Fetcher) : CrawlState → List Nat → Option CrawlState
  | s, [] => some s
  | s, i :: order =>
    match iteration fetcher s i with
    | some s1 => loop fetcher s1 order
    | none => none

/-- The variables before the first statement that uses them. -/
def initial : CrawlState :=
  { fetching := 0, fetched := [], inflight := [], stdout := [], closed := false,
    launches := [], consumed := [] }

/-- The state at the first loop head, after `dispatch(url, depth)`. -/
def start (url : String) (depth : Int) : CrawlState :=
  dispatch none url depth initial

/-- A complete run of `Crawl` under the arrival order `order`: the loop runs
the iterations of `order`, its condition is then false, and the channel is
closed.  `none` when `order` is not the arrival order of a complete run. -/
def Crawl (url : String) (depth : Int) (fetcher : Fetcher) (order : List Nat) :
    Option CrawlState :=
  match loop fetcher (start url depth) order with
  | some s => if 0 < s.fetching then none else some { s with closed := true }
  | none => none

/-! ## The test double -/

/-- The struct `fakeResult`. -/
structure fakeResult where
  body : String
  urls : List String
deriving DecidableEq

/-- The type `fakeFetcher`, a map of canned results. -/
abbrev fakeFetcher := GoMap fakeResult

/-- The method `Fetch` of `fakeFetcher`. -/
def fakeFetcher.Fetch (f : fakeFetcher) (url : String) : FetchReply :=
  match f.lookup url with
  | some res => { body := res.body, urls := res.urls, err := none }
  | none => { body := "", urls := [], err := some ("not found: " ++ url) }

/-- The populated `fetcher`. -/
def fetcher : fakeFetcher :=
  [ ("http://golang.org/",
      { body := "The Go Programming Language",
        urls := ["http://golang.org/pkg/", "http://golang.org/cmd/"] }),
    ("http://golang.org/pkg/",
      { body := "Packages",
        urls := ["http://golang.org/", "http://golang.org/cmd/",
                 "http://golang.org/pkg/fmt/", "http://golang.org/pkg/os/"] }),
    ("http://golang.org/pkg/fmt/",
      { body := "Package fmt",
        urls := ["http://golang.org/", "http://golang.org/pkg/"] }),
    ("http://golang.org/pkg/os/",
      { body := "Package os",
        urls := ["http://golang.org/", "http://golang.org/pkg/"] }) ]

/-- The graph of the example scenario `A -> [B]`. -/
def ab : fakeFetcher :=
  [ ("A", { body := "a", urls := ["B"] }) ]

/-- The graph of the example scenarios: `A -> [B, C]`, `B -> [A]`, `C -> []`. -/
def abc : fakeFetcher :=
  [ ("A", { body := "a", urls := ["B", "C"] }),
    ("B", { body := "b", urls := ["A"] }),
    ("C", { body := "c", urls := [] }) ]

/-! ## Specification vocabulary -/

/-- The arguments of a recorded call of `dispatch`. -/
def Launch.key (l : Launch) : String × Int := (l.url, l.depth)

/-- The arguments of the `dispatch` call that produced an outcome. -/
def result.key (r : result) : String × Int := (r.url, r.depth)

/-- The line the loop body writes for an outcome. -/
def lineOf (r : result) : Line :=
  match r.err with
  | some msg => Line.diag msg
  | none => Line.found r.url r.body

/-- Identifiers linked from the seed through successfully fetched pages. -/
inductive Reachable (fetcher : Fetcher) (seed : String) : String → Prop where
  | seed : Reachable fetcher seed seed
  | link {u v : String} : Reachable fetcher seed u → (fetcher u).err = none →
      v ∈ (fetcher u).urls → Reachable fetcher seed v

/-- The recorded call `dispatch(url, depth)` made before the loop. -/
def seedLaunch (seed : String) (depth : Int) : Launch :=
  { url := seed, depth := depth, marked := false, parent := none }

/-- Where a recorded call of `dispatch` inside the loop comes from: the
processing of a consumed successful outcome of positive depth that lists the
identifier; the depth passed is one less than that outcome's. -/
def Launch.Justified (consumed : List result) (l : Launch) : Prop :=
  ∃ r ∈ consumed, l.parent = some r ∧ r.err = none ∧ 0 < r.depth ∧
    l.depth = r.depth - 1 ∧ l.url ∈ r.urls

/-- The facts that hold of the variables of `Crawl` at every loop head (and
between two calls of `dispatch` inside an iteration). -/
structure Inv (fetcher : Fetcher) (seed : String) (depth : Int) (s : CrawlState) : Prop where
  counter : s.fetching = s.inflight.length
  perm : (s.launches.map Launch.key).Perm (s.consumed.map result.key ++ s.inflight)
  nodup : (s.launches.map Launch.url).Nodup
  marks : ∀ u, mapIndex s.fetched u = true ↔ u ∈ s.launches.map Launch.url
  fresh : ∀ l ∈ s.launches, l.marked = false
  out : s.stdout = s.consumed.map lineOf
  outcome : ∀ r ∈ s.consumed, r = fetch fetcher r.url r.depth
  origin : ∃ rest, s.launches = seedLaunch seed depth :: rest ∧
    ∀ l ∈ rest, l.Justified s.consumed
  reach : ∀ l ∈ s.launches, Reachable fetcher seed l.url
  range : ∀ l ∈ s.launches, l.depth ≤ depth ∧ (0 ≤ depth → 0 ≤ l.depth)
  opened : s.closed = false

/-- The state after the receive of outcome `i`, the decrement and the output
line of an iteration, before any link is followed. -/
def consume (res : result) (i : Nat) (s : CrawlState) : CrawlState :=
  { s with
    inflight := s.inflight.eraseIdx i
    fetching := s.fetching - 1
    consumed := s.consumed ++ [res]
    stdout := s.stdout ++ [lineOf res] }

/-- A bound on the number of iterations caused by one retrieval of `u` with
`d` levels left: itself, and those of the pages it links to. -/
def cost (fetcher : Fetcher) : Nat → String → Nat
  | 0, _ => 1
  | d + 1, u =>
    match (fetcher u).err with
    | some _ => 1
    | none => 1 + ((fetcher u).urls.map (cost fetcher d)).sum

/-- The summed cost of the outstanding retrievals. -/
def weight (fetcher : Fetcher) (l : List (String × Int)) : Nat :=
  (l.map (fun p => cost fetcher p.2.toNat p.1)).sum

/-- A list with every repeated element reduced to its first occurrence, in
the original order. -/
def keepFirst : List String → List String
  | [] => []
  | u :: us => u :: (keepFirst us).filter (fun v => v != u)

/-- The outbound list `urls` with every identifier marked in `fetched`
removed and every repeated identifier reduced to its first occurrence. -/
def novel (fetched : GoMap Bool) (urls : List String) : List String :=
  keepFirst (urls.filter (fun u => !mapIndex fetched u))

/-- The history record of a call `dispatch(u, res.depth-1)` made on an
unmarked identifier while processing `res`. -/
def childLaunch (res : result) (u : String) : Launch :=
  { url := u, depth := res.depth - 1, marked := false, parent := some res }

/-- The state after the calls `dispatch(u, res.depth-1)` for the identifiers
`us`, in order. -/
def dispatched (res : result) (us : List String) (s : CrawlState) : CrawlState :=
  { s with
    fetching := s.fetching + us.length
    inflight := s.inflight ++ us.map (fun u => (u, res.depth - 1))
    fetched := us.foldl (fun m u => mapAssign m u true) s.fetched
    launches := s.launches ++ us.map (childLaunch res) }

/-- The identifiers of the `found` lines of an output, in order. -/
def foundUrls : List Line → List String
  | [] => []
  | Line.found u _ :: ls => u :: foundUrls ls
  | Line.diag _ :: ls => foundUrls ls

/-- The index expression with comma-ok, `v, ok := m[k]`, on the map held in
the state: the entry of `k`, or `none` for `ok = false`.  An index expression
reads the map; it adds and changes no entry. -/
def commaOk {α : Type} (k : String) : StateM (GoMap α) (Option α) :=
  fun m => (m.lookup k, m)

/-- The assignment statement `m[k] = v` on the map held in the state. -/
def assign {α : Type} (k : String) (v : α) : StateM (GoMap α) Unit :=
  fun m => ((), mapAssign m k v)

/-- The method `Fetch` of `fakeFetcher` as a computation on the map `*f` of
its pointer receiver, statement by statement: the lookup
`res, ok := (*f)[url]`, then one of the two `return`s. -/
def fakeFetcher.FetchM (url : String) :
    StateM fakeFetcher (String × List String × Option String) := do
  match (← commaOk url) with
  | some res => return (res.body, res.urls, none)
  | none => return ("", [], some ("not found: " ++ url))

/-- The retrieval `p` was dispatched while processing the outcome `r0`: `r0`
is successful with positive depth and lists the identifier, the depth passed
is one less, and the recorded call names `r0` as its parent. -/
def Caused (launches : List Launch) (r0 : result) (p : String × Int) : Prop :=
  r0.err = none ∧ 0 < r0.depth ∧ p.2 = r0.depth - 1 ∧ p.1 ∈ r0.urls ∧
    ∃ l ∈ launches, l.key = p ∧ l.parent = some r0

/-- The causal order of a run: before any outcome is consumed only the seed
is outstanding; afterwards every outstanding retrieval was caused by a
consumed outcome, the first outcome consumed is the seed's, and every other
one was caused by an outcome consumed before it. -/
structure Causal (fetcher : Fetcher) (seed : String) (depth : Int) (s : CrawlState) :
    Prop where
  first : s.consumed = [] → s.inflight = [(seed, depth)]
  pending : s.consumed ≠ [] → ∀ p ∈ s.inflight, ∃ r0 ∈ s.consumed, Caused s.launches r0 p
  earlier : ∀ pre r post, s.consumed = pre ++ r :: post →
    (pre = [] ∧ r = fetch fetcher seed depth) ∨
    (pre ≠ [] ∧ ∃ r0 ∈ pre, Caused s.launches r0 r.key)

/-- A link path of `n` links from the seed to an identifier in the graph of
the fetcher: every node before the last is fetched without error and lists
the next. -/
inductive Path (fetcher : Fetcher) (seed : String) : Nat → String → Prop where
  | seed : Path fetcher seed 0 seed
  | link {n : Nat} {u v : String} : Path fetcher seed n u → (fetcher u).err = none →
      v ∈ (fetcher u).urls → Path fetcher seed (n + 1) v

/-- A link path of `n` links from the seed every node of which before the
last has its outcome among `consumed`, without error, listing the next. -/
inductive Trail (consumed : List result) (seed : String) : Nat → String → Prop where
  | seed : Trail consumed seed 0 seed
  | link {n : Nat} {u v : String} (r : result) : Trail consumed seed n u → r ∈ consumed →
      r.url = u → r.err = none → v ∈ r.urls → Trail consumed seed (n + 1) v

/-- The graph `S -> [A, B]`, `A -> [C]`, `C -> [D]`, `B -> [D]`, `D -> [E]`,
`E -> []`. -/
def diamond : fakeFetcher :=
  [ ("S", { body := "s", urls := ["A", "B"] }),
    ("A", { body := "a", urls := ["C"] }),
    ("C", { body := "c", urls := ["D"] }),
    ("B", { body := "b", urls := ["D"] }),
    ("D", { body := "d", urls := ["E"] }),
    ("E", { body := "e", urls := [] }) ]

/-- The arrival order in which every iteration receives the outcome of the
oldest outstanding dispatch: outcomes are consumed in dispatch order. -/
def fifo (n : Nat) : List Nat := List.replicate n 0

/-- The identifiers a page links to: its url list when its fetch succeeds,
none when it fails. -/
def links (fetcher : Fetcher) (u : String) : List String :=
  match (fetcher u).err with
  | none => (fetcher u).urls
  | some _ => []

/-- The identifiers of `urls` that are not in `seen`, each once, in the order
of their first occurrence. -/
def unseen (seen urls : List String) : List String :=
  keepFirst (urls.filter (fun u => !decide (u ∈ seen)))

/-- Breadth-first search, level by level: `level` holds the identifiers first
met at the current number of links from the seed, `seen` all identifiers met
so far; with `d` levels left, the next level is made of the identifiers not
seen yet that the pages of `level` link to, in the order of the level and of
the url lists. -/
def bfsLevels (fetcher : Fetcher) : Nat → List String → List String → List (List String)
  | 0, _, level => [level]
  | d + 1, seen, level =>
    level :: bfsLevels fetcher d
      (seen ++ unseen seen (level.flatMap (links fetcher)))
      (unseen seen (level.flatMap (links fetcher)))

/-- The levels of the breadth-first search from `seed` down to `depth` links. -/
def bfs (fetcher : Fetcher) (seed : String) (depth : Nat) : List (List String) :=
  bfsLevels fetcher depth [seed] [seed]

/-- The breadth-first order with the remaining depth of every identifier:
`depth` on the first level, one less on each following level. -/
def levelKeys (depth : Int) : List (List String) → List (String × Int)
  | [] => []
  | level :: rest => level.map (fun u => (u, depth)) ++ levelKeys (depth - 1) rest

/-- The shortest link path from the seed to `u` has `k` links. -/
def Dist (fetcher : Fetcher) (seed : String) (k : Nat) (u : String) : Prop :=
  Path fetcher seed k u ∧ ∀ m, m < k → ¬ Path fetcher seed m u

/-! ## Maps -/

theorem lookup_filter_ne {α : Type} (m : GoMap α) (k u : String) (h : u ≠ k) :
    (m.filter (fun e => e.1 != k)).lookup u = m.lookup u := by
  induction m with
  | nil => rfl
  | cons e m ih =>
    obtain ⟨a, b⟩ := e
    by_cases hak : a = k
    · subst hak
      have hua : (u == a) = false := by simpa using h
      simp [List.filter_cons, List.lookup_cons, hua, ih]
    · have : (a != k) = true := by simpa using hak
      simp [List.filter_cons, List.lookup_cons, this, ih]

theorem mapIndex_mapAssign (m : GoMap Bool) (k u : String) :
    mapIndex (mapAssign m k true) u = true ↔ u = k ∨ mapIndex m u = true := by
  by_cases h : u = k
  · subst h
    simp [mapIndex, mapAssign, List.lookup_cons]
  · have hb : (u == k) = false := by simpa using h
    simp [mapIndex, mapAssign, List.lookup_cons, hb, lookup_filter_ne m k u h, h]

/-! ## Lists -/

theorem perm_cons_eraseIdx {α : Type} (l : List α) (i : Nat) (p : α)
    (h : l.get? i = some p) : l.Perm (p :: l.eraseIdx i) := by
  induction l generalizing i with
  | nil => simp at h
  | cons a l ih =>
    cases i with
    | zero =>
      simp at h
      subst h
      simp
    | succ i =>
      simp at h
      have := ih i (by simpa using h)
      simp only [List.eraseIdx_cons_succ]
      exact (List.Perm.cons a this).trans (List.Perm.swap p a _)

theorem length_eraseIdx_of_get? {α : Type} (l : List α) (i : Nat) (p : α)
    (h : l.get? i = some p) : l.length = (l.eraseIdx i).length + 1 := by
  simpa using (perm_cons_eraseIdx l i p h).length_eq

/-! ## Preservation of the invariant -/

section Preservation

variable {fetcher : Fetcher} {seed : String} {depth : Int}

theorem Launch.Justified.mono {consumed : List result} {l : Launch} (r : result)
    (h : l.Justified consumed) : l.Justified (consumed ++ [r]) := by
  obtain ⟨q, hq, h⟩ := h
  exact ⟨q, List.mem_append_left _ hq, h⟩

theorem Inv.start : Inv fetcher seed depth (start seed depth) where
  counter := by simp [Crawler.start, Crawler.dispatch, initial]
  perm := by simp [Crawler.start, Crawler.dispatch, initial, Launch.key]
  nodup := by simp [Crawler.start, Crawler.dispatch, initial]
  marks := by
    intro u
    have h0 : mapIndex [] u = false := rfl
    simp [Crawler.start, Crawler.dispatch, initial, mapIndex_mapAssign, h0]
  fresh := by
    intro l hl
    simp [Crawler.start, Crawler.dispatch, initial] at hl
    subst hl
    simp [mapIndex]
  out := by simp [Crawler.start, Crawler.dispatch, initial]
  outcome := by simp [Crawler.start, Crawler.dispatch, initial]
  origin := ⟨[], rfl, by simp⟩
  reach := by
    intro l hl
    simp [Crawler.start, Crawler.dispatch, initial] at hl
    subst hl
    exact Reachable.seed
  range := by
    intro l hl
    simp [Crawler.start, Crawler.dispatch, initial] at hl
    subst hl
    exact ⟨le_refl _, fun h => h⟩
  opened := rfl

/-- A consumed outcome belongs to a recorded call of `dispatch`. -/
theorem Inv.launch_of_consumed {s : CrawlState} (h : Inv fetcher seed depth s)
    {r : result} (hr : r ∈ s.consumed) :
    ∃ l ∈ s.launches, l.url = r.url ∧ l.depth = r.depth := by
  have h1 : r.key ∈ s.consumed.map result.key ++ s.inflight :=
    List.mem_append_left _ (List.mem_map_of_mem _ hr)
  have h2 := h.perm.symm.subset h1
  obtain ⟨l, hl, hk⟩ := List.mem_map.1 h2
  refine ⟨l, hl, ?_, ?_⟩
  · exact congrArg Prod.fst hk
  · exact congrArg Prod.snd hk

/-- An outstanding retrieval belongs to a recorded call of `dispatch`. -/
theorem Inv.launch_of_inflight {s : CrawlState} (h : Inv fetcher seed depth s)
    {p : String × Int} (hp : p ∈ s.inflight) :
    ∃ l ∈ s.launches, l.url = p.1 ∧ l.depth = p.2 := by
  have h1 : p ∈ s.consumed.map result.key ++ s.inflight := List.mem_append_right _ hp
  have h2 := h.perm.symm.subset h1
  obtain ⟨l, hl, hk⟩ := List.mem_map.1 h2
  refine ⟨l, hl, ?_, ?_⟩
  · exact congrArg Prod.fst hk
  · exact congrArg Prod.snd hk

theorem Inv.dispatch {s : CrawlState} (h : Inv fetcher seed depth s) {res : result}
    (hres : res ∈ s.consumed) (herr : res.err = none) (hpos : 0 < res.depth)
    {u : String} (hu : u ∈ res.urls) (hnew : mapIndex s.fetched u = false) :
    Inv fetcher seed depth (dispatch (some res) u (res.depth - 1) s) := by
  have hnot : u ∉ s.launches.map Launch.url := by
    intro hm
    have := (h.marks u).2 hm
    simp [hnew] at this
  obtain ⟨lp, hlp, hlu, hld⟩ := h.launch_of_consumed hres
  have hfetch := h.outcome res hres
  exact {
    counter := by
      simp only [Crawler.dispatch, h.counter, List.length_append, List.length_singleton]
      push_cast
      rfl
    perm := by
      simp only [Crawler.dispatch, List.map_append, List.map_cons, List.map_nil, Launch.key]
      rw [← List.append_assoc]
      exact List.Perm.append_right _ h.perm
    nodup := by
      simp only [Crawler.dispatch, List.map_append, List.map_cons, List.map_nil]
      rw [List.nodup_append]
      refine ⟨h.nodup, List.nodup_singleton _, ?_⟩
      intro a ha hb
      simp at hb
      subst hb
      exact hnot ha
    marks := by
      intro v
      simp only [Crawler.dispatch, mapIndex_mapAssign, List.map_append, List.map_cons,
        List.map_nil, List.mem_append, List.mem_singleton, h.marks v]
      tauto
    fresh := by
      intro l hl
      simp only [Crawler.dispatch, List.mem_append, List.mem_singleton] at hl
      rcases hl with hl | hl
      · exact h.fresh l hl
      · subst hl
        exact hnew
    out := h.out
    outcome := h.outcome
    origin := by
      obtain ⟨rest, hrest, hj⟩ := h.origin
      refine ⟨rest ++ [Launch.mk u (res.depth - 1) (mapIndex s.fetched u) (some res)],
        by simp only [Crawler.dispatch, hrest, List.cons_append], ?_⟩
      intro l hl
      simp only [List.mem_append, List.mem_singleton] at hl
      rcases hl with hl | hl
      · exact hj l hl
      · subst hl
        exact ⟨res, hres, rfl, herr, hpos, rfl, hu⟩
    reach := by
      intro l hl
      simp only [Crawler.dispatch, List.mem_append, List.mem_singleton] at hl
      rcases hl with hl | hl
      · exact h.reach l hl
      · subst hl
        have hr : Reachable fetcher seed res.url := hlu ▸ h.reach lp hlp
        have e1 : (fetcher res.url).err = none := by
          have := congrArg result.err hfetch
          simp only [fetch] at this
          rw [← this]; exact herr
        have e2 : u ∈ (fetcher res.url).urls := by
          have := congrArg result.urls hfetch
          simp only [fetch] at this
          rw [← this]; exact hu
        exact Reachable.link hr e1 e2
    range := by
      intro l hl
      simp only [Crawler.dispatch, List.mem_append, List.mem_singleton] at hl
      rcases hl with hl | hl
      · exact h.range l hl
      · subst hl
        have := (h.range lp hlp).1
        simp only
        constructor
        · omega
        · intro _; omega
    opened := h.opened }

theorem Inv.follow {res : result} (herr : res.err = none) (hpos : 0 < res.depth)
    (us : List String) (hus : ∀ u ∈ us, u ∈ res.urls) :
    ∀ s : CrawlState, Inv fetcher seed depth s → res ∈ s.consumed →
      Inv fetcher seed depth (follow res s us) := by
  induction us with
  | nil => intro s h _; exact h
  | cons u us ih =>
    intro s h hres
    have hus1 : ∀ v ∈ us, v ∈ res.urls := fun v hv => hus v (List.mem_cons_of_mem _ hv)
    by_cases hm : mapIndex s.fetched u = true
    · simp only [Crawler.follow, hm, if_true]
      exact ih hus1 s h hres
    · have hm1 : mapIndex s.fetched u = false := by simpa using hm
      simp only [Crawler.follow, hm1]
      exact ih hus1 _ (h.dispatch hres herr hpos (hus u (List.mem_cons_self _ _)) hm1) hres

theorem process_eq (res : result) (i : Nat) (s : CrawlState) :
    process res { s with inflight := s.inflight.eraseIdx i } =
      if res.err = none ∧ 0 < res.depth then follow res (consume res i s) res.urls
      else consume res i s := by
  cases herr : res.err with
  | some msg => simp [process, consume, lineOf, herr]
  | none =>
    by_cases hd : res.depth ≤ 0
    · have : ¬ 0 < res.depth := not_lt.2 hd
      simp [process, consume, lineOf, herr, hd, this]
    · have : 0 < res.depth := not_le.1 hd
      simp [process, consume, lineOf, herr, hd, this]

theorem iteration_eq (fetcher : Fetcher) (s : CrawlState) (i : Nat) :
    iteration fetcher s i =
      if 0 < s.fetching then
        match s.inflight.get? i with
        | some p => some (process (fetch fetcher p.1 p.2)
            { s with inflight := s.inflight.eraseIdx i })
        | none => none
      else none := by
  unfold iteration receive
  cases s.inflight.get? i <;> rfl

theorem Inv.consume {s : CrawlState} (h : Inv fetcher seed depth s) {i : Nat}
    {p : String × Int} (hp : s.inflight.get? i = some p) :
    Inv fetcher seed depth (consume (fetch fetcher p.1 p.2) i s) where
  counter := by
    have := length_eraseIdx_of_get? _ _ _ hp
    simp only [Crawler.consume, h.counter]
    omega
  perm := by
    simp only [Crawler.consume, List.map_append, List.map_cons, List.map_nil, result.key,
      fetch, List.append_assoc, List.singleton_append]
    exact h.perm.trans (List.Perm.append_left _ (perm_cons_eraseIdx _ _ _ hp))
  nodup := h.nodup
  marks := h.marks
  fresh := h.fresh
  out := by simp [Crawler.consume, h.out]
  outcome := by
    intro r hr
    simp only [Crawler.consume, List.mem_append, List.mem_singleton] at hr
    rcases hr with hr | hr
    · exact h.outcome r hr
    · subst hr; rfl
  origin := by
    obtain ⟨rest, hrest, hj⟩ := h.origin
    exact ⟨rest, hrest, fun l hl => (hj l hl).mono _⟩
  reach := h.reach
  range := h.range
  opened := h.opened

theorem Inv.iteration {s s1 : CrawlState} (h : Inv fetcher seed depth s) {i : Nat}
    (hs : iteration fetcher s i = some s1) : Inv fetcher seed depth s1 := by
  rw [iteration_eq] at hs
  split at hs
  · split at hs
    · rename_i p hp
      simp only [Option.some.injEq] at hs
      subst hs
      rw [process_eq]
      have hc := h.consume hp
      split
      · rename_i hgo
        exact Inv.follow hgo.1 hgo.2 _ (fun _ hu => hu) _ hc (by simp [Crawler.consume])
      · exact hc
    · exact absurd hs (by simp)
  · exact absurd hs (by simp)

theorem Inv.loop (order : List Nat) :
    ∀ {s s1 : CrawlState}, Inv fetcher seed depth s → loop fetcher s order = some s1 →
      Inv fetcher seed depth s1 := by
  induction order with
  | nil =>
    intro s s1 h hs
    simp only [Crawler.loop, Option.some.injEq] at hs
    exact hs ▸ h
  | cons i order ih =>
    intro s s1 h hs
    simp only [Crawler.loop] at hs
    split at hs
    · rename_i s2 h2
      exact ih (h.iteration h2) hs
    · exact absurd hs (by simp)

/-- The invariant holds at every loop head of a run. -/
theorem Inv.run {order : List Nat} {s : CrawlState}
    (hs : Crawler.loop fetcher (Crawler.start seed depth) order = some s) :
    Inv fetcher seed depth s :=
  Inv.loop order Inv.start hs

end Preservation

/-! ## What an iteration changes -/

theorem follow_consumed (res : result) (us : List String) :
    ∀ s : CrawlState, (follow res s us).consumed = s.consumed := by
  induction us with
  | nil => intro s; rfl
  | cons u us ih =>
    intro s
    by_cases hm : mapIndex s.fetched u = true
    · simp only [follow, hm, if_true]; exact ih s
    · have hm1 : mapIndex s.fetched u = false := by simpa using hm
      simp only [follow, hm1, Bool.false_eq_true, if_false]
      rw [ih]; rfl

theorem follow_stdout (res : result) (us : List String) :
    ∀ s : CrawlState, (follow res s us).stdout = s.stdout := by
  induction us with
  | nil => intro s; rfl
  | cons u us ih =>
    intro s
    by_cases hm : mapIndex s.fetched u = true
    · simp only [follow, hm, if_true]; exact ih s
    · have hm1 : mapIndex s.fetched u = false := by simpa using hm
      simp only [follow, hm1, Bool.false_eq_true, if_false]
      rw [ih]; rfl

/-- An iteration takes one outstanding retrieval and runs the body on it. -/
theorem iteration_some {fetcher : Fetcher} {s s1 : CrawlState} {i : Nat}
    (h : iteration fetcher s i = some s1) :
    0 < s.fetching ∧ ∃ p, s.inflight.get? i = some p ∧
      s1 = process (fetch fetcher p.1 p.2) { s with inflight := s.inflight.eraseIdx i } := by
  rw [iteration_eq] at h
  split at h
  · rename_i hpos
    split at h
    · rename_i p hp
      exact ⟨hpos, p, hp, by simpa using h.symm⟩
    · exact absurd h (by simp)
  · exact absurd h (by simp)

theorem process_consumed (res : result) (i : Nat) (s : CrawlState) :
    (process res { s with inflight := s.inflight.eraseIdx i }).consumed =
      s.consumed ++ [res] := by
  rw [process_eq]
  split
  · rw [follow_consumed]; rfl
  · rfl

theorem process_stdout (res : result) (i : Nat) (s : CrawlState) :
    (process res { s with inflight := s.inflight.eraseIdx i }).stdout =
      s.stdout ++ [lineOf res] := by
  rw [process_eq]
  split
  · rw [follow_stdout]; rfl
  · rfl

theorem loop_append (fetcher : Fetcher) (a b : List Nat) :
    ∀ s : CrawlState, loop fetcher s (a ++ b) =
      match loop fetcher s a with
      | some s1 => loop fetcher s1 b
      | none => none := by
  induction a with
  | nil => intro s; rfl
  | cons i a ih =>
    intro s
    simp only [List.cons_append, loop]
    cases iteration fetcher s i with
    | none => rfl
    | some s1 => exact ih s1

theorem loop_consumed_length {fetcher : Fetcher} (order : List Nat) :
    ∀ {s s1 : CrawlState}, loop fetcher s order = some s1 →
      s1.consumed.length = s.consumed.length + order.length := by
  induction order with
  | nil =>
    intro s s1 h
    simp only [loop, Option.some.injEq] at h
    simp [h]
  | cons i order ih =>
    intro s s1 h
    simp only [loop] at h
    split at h
    · rename_i s2 h2
      obtain ⟨_, p, _, hs2⟩ := iteration_some h2
      have h3 := ih h
      have h4 : s2.consumed.length = s.consumed.length + 1 := by
        rw [hs2, process_consumed]
        simp
      simp only [List.length_cons]
      omega
    · exact absurd h (by simp)

/-! ## The termination measure -/

theorem cost_pos (fetcher : Fetcher) (d : Nat) (u : String) : 0 < cost fetcher d u := by
  cases d with
  | zero => simp [cost]
  | succ d =>
    simp only [cost]
    split <;> omega

theorem weight_append (fetcher : Fetcher) (a b : List (String × Int)) :
    weight fetcher (a ++ b) = weight fetcher a + weight fetcher b := by
  simp [weight]

theorem weight_eraseIdx (fetcher : Fetcher) (l : List (String × Int)) (i : Nat)
    (p : String × Int) (h : l.get? i = some p) :
    weight fetcher l = cost fetcher p.2.toNat p.1 + weight fetcher (l.eraseIdx i) := by
  have := ((perm_cons_eraseIdx l i p h).map (fun p => cost fetcher p.2.toNat p.1)).sum_eq
  simpa [weight] using this

theorem weight_follow (fetcher : Fetcher) (res : result) (us : List String) :
    ∀ s : CrawlState, weight fetcher (follow res s us).inflight ≤
      weight fetcher s.inflight + (us.map (cost fetcher (res.depth - 1).toNat)).sum := by
  induction us with
  | nil => intro s; simp [follow]
  | cons u us ih =>
    intro s
    by_cases hm : mapIndex s.fetched u = true
    · simp only [follow, hm, if_true, List.map_cons, List.sum_cons]
      have := ih s
      omega
    · have hm1 : mapIndex s.fetched u = false := by simpa using hm
      simp only [follow, hm1, List.map_cons, List.sum_cons]
      have := ih (dispatch (some res) u (res.depth - 1) s)
      have e : weight fetcher (dispatch (some res) u (res.depth - 1) s).inflight =
          weight fetcher s.inflight + cost fetcher (res.depth - 1).toNat u := by
        simp [dispatch, weight]
      simp only [Bool.false_eq_true, if_false]
      omega

/-- Every iteration lowers the weight of the outstanding retrievals. -/
theorem weight_iteration {fetcher : Fetcher} {s s1 : CrawlState} {i : Nat}
    (h : iteration fetcher s i = some s1) :
    weight fetcher s1.inflight + 1 ≤ weight fetcher s.inflight := by
  obtain ⟨_, p, hp, hs1⟩ := iteration_some h
  have hw := weight_eraseIdx fetcher _ _ _ hp
  have hc := cost_pos fetcher p.2.toNat p.1
  rw [hs1, process_eq]
  split
  · rename_i hgo
    obtain ⟨herr, hpos⟩ := hgo
    have hf := weight_follow fetcher (fetch fetcher p.1 p.2) (fetch fetcher p.1 p.2).urls
      (consume (fetch fetcher p.1 p.2) i s)
    have hd : p.2.toNat = (p.2 - 1).toNat + 1 := by
      have : 0 < p.2 := hpos
      omega
    have hcost : cost fetcher p.2.toNat p.1 =
        1 + ((fetcher p.1).urls.map (cost fetcher (p.2 - 1).toNat)).sum := by
      have e : (fetcher p.1).err = none := herr
      rw [hd]
      simp only [cost, e]
    simp only [fetch, consume] at hf ⊢
    omega
  · simp only [consume]
    omega

theorem weight_loop {fetcher : Fetcher} (order : List Nat) :
    ∀ {s s1 : CrawlState}, loop fetcher s order = some s1 →
      order.length + weight fetcher s1.inflight ≤ weight fetcher s.inflight := by
  induction order with
  | nil =>
    intro s s1 h
    simp only [loop, Option.some.injEq] at h
    simp [h]
  | cons i order ih =>
    intro s s1 h
    simp only [loop] at h
    split at h
    · rename_i s2 h2
      have := ih h
      have := weight_iteration h2
      simp only [List.length_cons]
      omega
    · exact absurd h (by simp)

theorem weight_start (fetcher : Fetcher) (seed : String) (depth : Int) :
    weight fetcher (start seed depth).inflight = cost fetcher depth.toNat seed := by
  simp [start, dispatch, initial, weight]

/-- With the counter equal to the number of outstanding retrievals, an
iteration is possible for exactly the indices of outstanding retrievals. -/
theorem iteration_isSome (fetcher : Fetcher) {s : CrawlState}
    (hc : s.fetching = s.inflight.length) (i : Nat) :
    (iteration fetcher s i).isSome ↔ i < s.inflight.length := by
  rw [iteration_eq]
  constructor
  · intro h
    split at h
    · split at h
      · rename_i p hp
        exact (List.get?_eq_some.1 hp).1
      · simp at h
    · simp at h
  · intro h
    have hpos : 0 < s.fetching := by omega
    rw [if_pos hpos, List.get?_eq_get h]
    rfl

/-- From every loop head the loop can run to its exit. -/
theorem loop_completes {fetcher : Fetcher} {seed : String} {depth : Int} :
    ∀ (n : Nat) (s : CrawlState), weight fetcher s.inflight ≤ n → Inv fetcher seed depth s →
      ∃ rest s1, loop fetcher s rest = some s1 ∧ ¬ 0 < s1.fetching := by
  intro n
  induction n with
  | zero =>
    intro s hw h
    refine ⟨[], s, rfl, ?_⟩
    cases hl : s.inflight with
    | nil => simp [h.counter, hl]
    | cons p l =>
      have := cost_pos fetcher p.2.toNat p.1
      simp [hl, weight] at hw
      omega
  | succ n ih =>
    intro s hw h
    by_cases hpos : 0 < s.fetching
    · have hlen : 0 < s.inflight.length := by have := h.counter; omega
      have hsome := (iteration_isSome fetcher h.counter 0).2 hlen
      obtain ⟨s2, h2⟩ := Option.isSome_iff_exists.1 hsome
      have hw2 := weight_iteration h2
      obtain ⟨rest, s1, hr, hz⟩ := ih s2 (by omega) (h.iteration h2)
      exact ⟨0 :: rest, s1, by simp only [loop, h2]; exact hr, hz⟩
    · exact ⟨[], s, rfl, hpos⟩

/-! ## The links followed in one iteration -/

theorem keepFirst_filter (p : String → Bool) (l : List String) :
    keepFirst (l.filter p) = (keepFirst l).filter p := by
  induction l with
  | nil => rfl
  | cons a l ih =>
    by_cases hp : p a = true
    · simp only [List.filter_cons, hp, if_true, keepFirst, ih, List.filter_filter]
      congr 1
      apply List.filter_congr
      intro x _
      exact Bool.and_comm _ _
    · have hp1 : p a = false := by simpa using hp
      simp only [List.filter_cons, hp1, keepFirst, ih, List.filter_filter,
        Bool.false_eq_true, if_false]
      apply List.filter_congr
      intro x _
      by_cases hx : x = a
      · subst hx; simp [hp1]
      · simp [hx]

theorem novel_cons_marked (m : GoMap Bool) (u : String) (us : List String)
    (h : mapIndex m u = true) : novel m (u :: us) = novel m us := by
  simp [novel, List.filter_cons, h]

theorem novel_cons_unmarked (m : GoMap Bool) (u : String) (us : List String)
    (h : mapIndex m u = false) :
    novel m (u :: us) = u :: novel (mapAssign m u true) us := by
  have e : us.filter (fun v => !mapIndex (mapAssign m u true) v) =
      (us.filter (fun v => !mapIndex m v)).filter (fun v => v != u) := by
    rw [List.filter_filter]
    apply List.filter_congr
    intro x _
    have := mapIndex_mapAssign m u x
    by_cases hx : x = u
    · subst hx
      have h1 : mapIndex (mapAssign m x true) x = true := this.2 (Or.inl rfl)
      simp [h1]
    · have h1 : mapIndex (mapAssign m u true) x = mapIndex m x := by
        rw [Bool.eq_iff_iff, this]
        simp [hx]
      simp [h1, hx]
  simp only [novel, List.filter_cons, h, Bool.not_false, if_true, keepFirst, e,
    keepFirst_filter]

/-- The inner loop dispatches exactly the novel identifiers, in order. -/
theorem follow_eq (res : result) (us : List String) :
    ∀ s : CrawlState, follow res s us = dispatched res (novel s.fetched us) s := by
  induction us with
  | nil => intro s; simp [follow, dispatched, novel, keepFirst]
  | cons u us ih =>
    intro s
    by_cases hm : mapIndex s.fetched u = true
    · simp only [follow, hm, if_true, novel_cons_marked _ _ _ hm]
      exact ih s
    · have hm1 : mapIndex s.fetched u = false := by simpa using hm
      simp only [follow, hm1, Bool.false_eq_true, if_false, novel_cons_unmarked _ _ _ hm1]
      rw [ih]
      simp only [dispatched, dispatch, hm1, childLaunch, List.length_cons, List.map_cons,
        List.foldl_cons, List.append_assoc, List.singleton_append, Nat.cast_add,
        Nat.cast_one]
      congr 1
      omega

theorem mem_keepFirst (l : List String) (u : String) : u ∈ keepFirst l ↔ u ∈ l := by
  induction l with
  | nil => simp [keepFirst]
  | cons a l ih =>
    by_cases h : u = a
    · simp [keepFirst, h]
    · simp [keepFirst, h, ih]

theorem keepFirst_nodup (l : List String) : (keepFirst l).Nodup := by
  induction l with
  | nil => simp [keepFirst]
  | cons a l ih =>
    simp only [keepFirst, List.nodup_cons]
    exact ⟨by simp, ih.filter _⟩

theorem keepFirst_sublist (l : List String) : (keepFirst l).Sublist l := by
  induction l with
  | nil => simp [keepFirst]
  | cons a l ih =>
    simp only [keepFirst]
    exact List.Sublist.cons₂ a ((List.filter_sublist _).trans ih)

theorem mem_novel (m : GoMap Bool) (urls : List String) (u : String) :
    u ∈ novel m urls ↔ u ∈ urls ∧ mapIndex m u = false := by
  simp [novel, mem_keepFirst]

/-! ## Output -/

theorem foundUrls_sublist (rs : List result) :
    (foundUrls (rs.map lineOf)).Sublist (rs.map result.url) := by
  induction rs with
  | nil => simp [foundUrls]
  | cons r rs ih =>
    cases herr : r.err with
    | none =>
      simp only [List.map_cons, lineOf, herr, foundUrls]
      exact List.Sublist.cons₂ _ ih
    | some msg =>
      simp only [List.map_cons, lineOf, herr, foundUrls]
      exact List.Sublist.cons _ ih

/-- The outcomes consumed belong to pairwise distinct identifiers. -/
theorem Inv.consumed_nodup {fetcher : Fetcher} {seed : String} {depth : Int}
    {s : CrawlState} (h : Inv fetcher seed depth s) : (s.consumed.map result.url).Nodup := by
  have hp := h.perm.map Prod.fst
  have e1 : (s.launches.map Launch.key).map Prod.fst = s.launches.map Launch.url := by
    simp [Launch.key, Function.comp_def]
  have e2 : (s.consumed.map result.key ++ s.inflight).map Prod.fst =
      s.consumed.map result.url ++ s.inflight.map Prod.fst := by
    simp [result.key, Function.comp_def]
  rw [e1, e2] at hp
  exact (List.nodup_append.1 (hp.nodup_iff.1 h.nodup)).1

/-! ## The test double -/

theorem lookup_eq_none_iff_not_key {α : Type} (m : GoMap α) (k : String) :
    m.lookup k = none ↔ k ∉ m.map Prod.fst := by
  induction m with
  | nil => simp
  | cons e m ih =>
    obtain ⟨a, b⟩ := e
    by_cases h : k = a
    · subst h; simp [List.lookup_cons]
    · have hb : (k == a) = false := by simpa using h
      simp [List.lookup_cons, hb, ih, h]

theorem lookup_mem {α : Type} (m : GoMap α) (k : String) (v : α)
    (h : m.lookup k = some v) : (k, v) ∈ m := by
  induction m with
  | nil => simp at h
  | cons e m ih =>
    obtain ⟨a, b⟩ := e
    by_cases hk : k = a
    · subst hk
      simp [List.lookup_cons] at h
      simp [h]
    · have hb : (k == a) = false := by simpa using hk
      simp only [List.lookup_cons, hb] at h
      exact List.mem_cons_of_mem _ (ih h)

theorem lookup_of_mem_nodup {α : Type} (m : GoMap α) (k : String) (v : α)
    (hn : (m.map Prod.fst).Nodup) (h : (k, v) ∈ m) : m.lookup k = some v := by
  induction m with
  | nil => simp at h
  | cons e m ih =>
    obtain ⟨a, b⟩ := e
    simp only [List.map_cons, List.nodup_cons] at hn
    rcases List.mem_cons.1 h with h1 | h1
    · cases h1
      simp [List.lookup_cons]
    · have hne : k ≠ a := by
        intro hka
        subst hka
        exact hn.1 (List.mem_map_of_mem Prod.fst h1)
      have hb : (k == a) = false := by simpa using hne
      simp only [List.lookup_cons, hb]
      exact ih hn.2 h1

/-! ## Complete runs -/

theorem Crawl_of_loop {fetcher : Fetcher} {seed : String} {depth : Int} {order : List Nat}
    {s : CrawlState} (h : loop fetcher (start seed depth) order = some s) :
    Crawl seed depth fetcher order =
      if 0 < s.fetching then none else some { s with closed := true } := by
  simp only [Crawl, h]

theorem Crawl_some {fetcher : Fetcher} {seed : String} {depth : Int} {order : List Nat}
    {s : CrawlState} (h : Crawl seed depth fetcher order = some s) :
    ∃ s0, loop fetcher (start seed depth) order = some s0 ∧ ¬ 0 < s0.fetching ∧
      s = { s0 with closed := true } := by
  unfold Crawl at h
  split at h
  · rename_i s0 h0
    split at h
    · exact absurd h (by simp)
    · rename_i hz
      exact ⟨s0, h0, hz, by simpa using h.symm⟩
  · exact absurd h (by simp)

/-- Distinct identifiers inside a finite set are at most as many as the set. -/
theorem length_le_card_of_nodup {l : List String} (hn : l.Nodup) (R : Finset String)
    (hR : ∀ u ∈ l, u ∈ R) : l.length ≤ R.card := by
  rw [← List.toFinset_card_of_nodup hn]
  apply Finset.card_le_card
  intro u hu
  exact hR u (List.mem_toFinset.1 hu)

/-- Every run of the loop can be continued to a complete run of `Crawl`. -/
theorem Crawl_completes {fetcher : Fetcher} {seed : String} {depth : Int} {order : List Nat}
    {s : CrawlState} (h : loop fetcher (start seed depth) order = some s) :
    ∃ rest s1, Crawl seed depth fetcher (order ++ rest) = some s1 := by
  obtain ⟨rest, s1, hr, hz⟩ := loop_completes _ s (le_refl _) (Inv.run h)
  have hl : loop fetcher (start seed depth) (order ++ rest) = some s1 := by
    rw [loop_append, h]
    exact hr
  exact ⟨rest, _, by rw [Crawl_of_loop hl, if_neg hz]⟩

theorem iteration_launches {fetcher : Fetcher} {s s1 : CrawlState} {i : Nat}
    (h : iteration fetcher s i = some s1) : ∃ extra, s1.launches = s.launches ++ extra := by
  obtain ⟨_, p, _, hs1⟩ := iteration_some h
  rw [hs1, process_eq]
  split
  · rw [follow_eq]
    exact ⟨_, rfl⟩
  · exact ⟨[], by simp [consume]⟩

theorem loop_launches {fetcher : Fetcher} (order : List Nat) :
    ∀ {s s1 : CrawlState}, loop fetcher s order = some s1 →
      ∃ extra, s1.launches = s.launches ++ extra := by
  induction order with
  | nil =>
    intro s s1 h
    simp only [loop, Option.some.injEq] at h
    exact ⟨[], by simp [h]⟩
  | cons i order ih =>
    intro s s1 h
    simp only [loop] at h
    split at h
    · rename_i s2 h2
      obtain ⟨e1, he1⟩ := iteration_launches h2
      obtain ⟨e2, he2⟩ := ih h
      exact ⟨e1 ++ e2, by rw [he2, he1, List.append_assoc]⟩
    · exact absurd h (by simp)

/-- At the exit of the loop the outcome of every dispatch has been consumed. -/
theorem Inv.consumed_at_exit {fetcher : Fetcher} {seed : String} {depth : Int}
    {s : CrawlState} (h : Inv fetcher seed depth s) (hz : ¬ 0 < s.fetching)
    {l : Launch} (hl : l ∈ s.launches) : fetch fetcher l.url l.depth ∈ s.consumed := by
  have hc := h.counter
  have h0 : s.inflight = [] := by
    rw [← List.length_eq_zero]
    omega
  have hk : l.key ∈ s.consumed.map result.key ++ s.inflight :=
    h.perm.subset (List.mem_map_of_mem _ hl)
  rw [h0, List.append_nil] at hk
  obtain ⟨r, hr, hrk⟩ := List.mem_map.1 hk
  have h1 : r.url = l.url := congrArg Prod.fst hrk
  have h2 : r.depth = l.depth := congrArg Prod.snd hrk
  have := h.outcome r hr
  rw [h1, h2] at this
  exact this ▸ hr

/-! ## The first iteration and exhausted depth -/

/-- The first iteration receives the outcome of the seed. -/
theorem iteration_start (fetcher : Fetcher) (seed : String) (depth : Int) (i : Nat) :
    iteration fetcher (start seed depth) i =
      if i = 0 then
        some (process (fetch fetcher seed depth)
          { start seed depth with inflight := (start seed depth).inflight.eraseIdx 0 })
      else none := by
  rw [iteration_eq]
  have hpos : 0 < (start seed depth).fetching := by simp [start, dispatch, initial]
  have hin : (start seed depth).inflight = [(seed, depth)] := rfl
  rw [if_pos hpos, hin]
  cases i with
  | zero => rfl
  | succ i => simp

theorem loop_consumed {fetcher : Fetcher} (order : List Nat) :
    ∀ {s s1 : CrawlState}, loop fetcher s order = some s1 →
      ∃ extra, s1.consumed = s.consumed ++ extra := by
  induction order with
  | nil =>
    intro s s1 h
    simp only [loop, Option.some.injEq] at h
    exact ⟨[], by simp [h]⟩
  | cons i order ih =>
    intro s s1 h
    simp only [loop] at h
    split at h
    · rename_i s2 h2
      obtain ⟨_, p, _, hs2⟩ := iteration_some h2
      obtain ⟨e2, he2⟩ := ih h
      refine ⟨fetch fetcher p.1 p.2 :: e2, ?_⟩
      rw [he2, hs2, process_consumed]
      simp
    · exact absurd h (by simp)

/-- An iteration that receives an outcome of depth `≤ 0` dispatches nothing. -/
theorem iteration_exhausted {fetcher : Fetcher} {s s1 : CrawlState} {i : Nat}
    (hz : ∀ p ∈ s.inflight, p.2 ≤ 0) (h : iteration fetcher s i = some s1) :
    s1.launches = s.launches ∧ ∀ p ∈ s1.inflight, p.2 ≤ 0 := by
  obtain ⟨_, p, hp, hs1⟩ := iteration_some h
  have hmem : p ∈ s.inflight := List.get?_mem hp
  have hno : ¬ ((fetch fetcher p.1 p.2).err = none ∧ 0 < (fetch fetcher p.1 p.2).depth) := by
    intro hgo
    have h1 : 0 < p.2 := hgo.2
    have h2 := hz p hmem
    omega
  rw [hs1, process_eq, if_neg hno]
  refine ⟨rfl, ?_⟩
  intro q hq
  have hq1 : q ∈ s.inflight.eraseIdx i := hq
  have := (perm_cons_eraseIdx _ _ _ hp).symm.subset (List.mem_cons_of_mem _ hq1)
  exact hz q this

theorem loop_exhausted {fetcher : Fetcher} (order : List Nat) :
    ∀ {s s1 : CrawlState}, (∀ p ∈ s.inflight, p.2 ≤ 0) → loop fetcher s order = some s1 →
      s1.launches = s.launches := by
  induction order with
  | nil =>
    intro s s1 _ h
    simp only [loop, Option.some.injEq] at h
    rw [h]
  | cons i order ih =>
    intro s s1 hz h
    simp only [loop] at h
    split at h
    · rename_i s2 h2
      obtain ⟨e1, e2⟩ := iteration_exhausted hz h2
      rw [ih e2 h, e1]
    · exact absurd h (by simp)

/-! ## Induction over the runs of the loop -/

/-- A property of the variables of `Crawl` holds at every loop head of the
runs whose arrival order takes only indices in `allowed`, when it holds after
the first `dispatch`, is kept by the receive of an allowed outcome with the
decrement and the output line, and is kept by each call of `dispatch` made
while following the links of the outcome just received. -/
theorem loop_induction (fetcher : Fetcher) (seed : String) (depth : Int)
    (P : CrawlState → Prop) (allowed : Nat → Prop)
    (hstart : P (start seed depth))
    (hcons : ∀ s i p, Inv fetcher seed depth s → P s → allowed i →
      s.inflight.get? i = some p → P (consume (fetch fetcher p.1 p.2) i s))
    (hdisp : ∀ s res pre u, Inv fetcher seed depth s → P s → s.consumed = pre ++ [res] →
      res.err = none → 0 < res.depth → u ∈ res.urls → mapIndex s.fetched u = false →
      P (dispatch (some res) u (res.depth - 1) s)) :
    ∀ (order : List Nat) (s : CrawlState), (∀ i ∈ order, allowed i) →
      loop fetcher (start seed depth) order = some s → P s := by
  have hfollow : ∀ (res : result), res.err = none → 0 < res.depth →
      ∀ (us : List String), (∀ u ∈ us, u ∈ res.urls) →
      ∀ s : CrawlState, Inv fetcher seed depth s → P s → (∃ pre, s.consumed = pre ++ [res]) →
        P (follow res s us) := by
    intro res herr hpos us
    induction us with
    | nil => intro _ s _ hP _; exact hP
    | cons u us ih =>
      intro hus s hinv hP hlast
      have hus1 : ∀ v ∈ us, v ∈ res.urls := fun v hv => hus v (List.mem_cons_of_mem _ hv)
      by_cases hm : mapIndex s.fetched u = true
      · simp only [follow, hm, if_true]
        exact ih hus1 s hinv hP hlast
      · have hm1 : mapIndex s.fetched u = false := by simpa using hm
        obtain ⟨pre, hpre⟩ := hlast
        have hres : res ∈ s.consumed := by rw [hpre]; simp
        simp only [follow, hm1, Bool.false_eq_true, if_false]
        exact ih hus1 _
          (hinv.dispatch hres herr hpos (hus u (List.mem_cons_self _ _)) hm1)
          (hdisp s res pre u hinv hP hpre herr hpos (hus u (List.mem_cons_self _ _)) hm1)
          ⟨pre, hpre⟩
  have hiter : ∀ (s s1 : CrawlState) (i : Nat), Inv fetcher seed depth s → P s → allowed i →
      iteration fetcher s i = some s1 → P s1 := by
    intro s s1 i hinv hP hal hs1
    obtain ⟨_, p, hp, hs⟩ := iteration_some hs1
    rw [hs, process_eq]
    have hc := hcons s i p hinv hP hal hp
    split
    · rename_i hgo
      exact hfollow _ hgo.1 hgo.2 _ (fun _ hu => hu) _ (hinv.consume hp) hc ⟨s.consumed, rfl⟩
    · exact hc
  have hloop : ∀ (order : List Nat) (s s1 : CrawlState), Inv fetcher seed depth s → P s →
      (∀ i ∈ order, allowed i) → loop fetcher s order = some s1 → P s1 := by
    intro order
    induction order with
    | nil =>
      intro s s1 _ hP _ h
      simp only [loop, Option.some.injEq] at h
      exact h ▸ hP
    | cons i order ih =>
      intro s s1 hinv hP hal h
      simp only [loop] at h
      split at h
      · rename_i s2 h2
        exact ih s2 s1 (hinv.iteration h2)
          (hiter s s2 i hinv hP (hal i (List.mem_cons_self _ _)) h2)
          (fun j hj => hal j (List.mem_cons_of_mem _ hj)) h
      · exact absurd h (by simp)
  intro order s hal h
  exact hloop order _ s Inv.start hstart hal h

/-! ## The visited set -/

/-- The map `fetched` holds one entry, `true`, per recorded dispatch, the
most recent first. -/
theorem fetched_eq_launches {fetcher : Fetcher} {seed : String} {depth : Int}
    {order : List Nat} {s : CrawlState}
    (h : loop fetcher (start seed depth) order = some s) :
    s.fetched = (s.launches.map (fun l => (l.url, true))).reverse := by
  refine loop_induction fetcher seed depth
    (fun s => s.fetched = (s.launches.map (fun l => (l.url, true))).reverse)
    (fun _ => True) rfl ?_ ?_ order s (fun _ _ => trivial) h
  · intro s i p _ hP _ _
    exact hP
  · intro s res pre u hinv hP _ _ _ _ hm
    have hnot : u ∉ s.launches.map Launch.url := by
      intro hmem
      have := (hinv.marks u).2 hmem
      simp [hm] at this
    have hfil : s.fetched.filter (fun e => e.1 != u) = s.fetched := by
      rw [List.filter_eq_self]
      intro e he
      rw [hP] at he
      simp only [List.mem_reverse, List.mem_map] at he
      obtain ⟨l, hl, rfl⟩ := he
      have : l.url ≠ u := by
        intro hu
        exact hnot (List.mem_map.2 ⟨l, hl, hu⟩)
      simpa using this
    simp only [dispatch, mapAssign, hfil, List.map_append, List.map_cons, List.map_nil,
      List.reverse_append, List.reverse_cons, List.reverse_nil, List.nil_append,
      List.singleton_append]
    rw [hP]

/-! ## Causal order -/

theorem Caused.launches_mono {launches : List Launch} {r0 : result} {p : String × Int}
    (extra : List Launch) (h : Caused launches r0 p) : Caused (launches ++ extra) r0 p := by
  obtain ⟨h1, h2, h3, h4, l, hl, h5⟩ := h
  exact ⟨h1, h2, h3, h4, l, List.mem_append_left _ hl, h5⟩

theorem causal_run {fetcher : Fetcher} {seed : String} {depth : Int}
    {order : List Nat} {s : CrawlState}
    (h : loop fetcher (start seed depth) order = some s) : Causal fetcher seed depth s := by
  refine loop_induction fetcher seed depth
    (Causal fetcher seed depth) (fun _ => True) ?_ ?_ ?_ order s (fun _ _ => trivial) h
  · exact {
      first := fun _ => rfl
      pending := fun hne => absurd rfl hne
      earlier := by
        intro pre r post hsplit
        have : (start seed depth).consumed = [] := rfl
        rw [this] at hsplit
        simp at hsplit }
  · intro s i p _ hP _ hp
    have hmem : p ∈ s.inflight := List.get?_mem hp
    have hsub : ∀ q ∈ s.inflight.eraseIdx i, q ∈ s.inflight := fun q hq =>
      (perm_cons_eraseIdx _ _ _ hp).symm.subset (List.mem_cons_of_mem _ hq)
    exact {
      first := by
        intro hnil
        simp [consume] at hnil
      pending := by
        intro _ q hq
        have hq1 : q ∈ s.inflight := hsub q hq
        by_cases hc : s.consumed = []
        · have h1 := hP.first hc
          have hlen := length_eraseIdx_of_get? _ _ _ hp
          have hone : s.inflight.length = 1 := by rw [h1]; rfl
          have h0 : s.inflight.eraseIdx i = [] := by
            rw [← List.length_eq_zero]
            omega
          have hq2 : q ∈ s.inflight.eraseIdx i := hq
          rw [h0] at hq2
          simp at hq2
        · obtain ⟨r0, hr0, hcaused⟩ := hP.pending hc q hq1
          exact ⟨r0, List.mem_append_left _ hr0, hcaused⟩
      earlier := by
        intro pre r post hsplit
        have hsplit1 : s.consumed ++ [fetch fetcher p.1 p.2] = pre ++ r :: post := hsplit
        rcases List.eq_nil_or_concat post with hpost | ⟨post1, x, hpost⟩
        · subst hpost
          have hsplit2 : s.consumed ++ [fetch fetcher p.1 p.2] = pre ++ [r] := hsplit1
          have h1 := List.append_inj_left' hsplit2 rfl
          have h2 := List.append_inj_right' hsplit2 rfl
          simp only [List.cons.injEq, and_true] at h2
          subst h1
          by_cases hc : s.consumed = []
          · left
            have h3 := hP.first hc
            rw [h3] at hmem
            simp only [List.mem_singleton] at hmem
            rw [hmem] at h2
            exact ⟨hc, h2.symm⟩
          · right
            obtain ⟨r0, hr0, hcaused⟩ := hP.pending hc p hmem
            refine ⟨hc, r0, hr0, ?_⟩
            rw [← h2]
            exact hcaused
        · subst hpost
          have hsplit2 : s.consumed ++ [fetch fetcher p.1 p.2] = (pre ++ r :: post1) ++ [x] := by
            rw [hsplit1]; simp
          have h1 := List.append_inj_left' hsplit2 rfl
          exact hP.earlier pre r post1 h1 }
  · intro s res pre u _ hP hpre herr hpos hu _
    have hne : s.consumed ≠ [] := by rw [hpre]; simp
    have hmono : ∀ r0 q, Caused s.launches r0 q →
        Caused (dispatch (some res) u (res.depth - 1) s).launches r0 q :=
      fun r0 q hq => hq.launches_mono _
    exact {
      first := fun hnil => absurd hnil hne
      pending := by
        intro _ q hq
        have hq1 : q ∈ s.inflight ++ [(u, res.depth - 1)] := hq
        rcases List.mem_append.1 hq1 with hq2 | hq2
        · obtain ⟨r0, hr0, hcaused⟩ := hP.pending hne q hq2
          exact ⟨r0, hr0, hmono r0 q hcaused⟩
        · simp only [List.mem_singleton] at hq2
          subst hq2
          refine ⟨res, by rw [show (dispatch (some res) u (res.depth - 1) s).consumed =
            s.consumed from rfl, hpre]; simp, herr, hpos, rfl, hu, ?_⟩
          exact ⟨_, List.mem_append_right _ (List.mem_singleton_self _), rfl, rfl⟩
      earlier := by
        intro pre1 r post hsplit
        rcases hP.earlier pre1 r post hsplit with h1 | ⟨h1, r0, hr0, hcaused⟩
        · exact Or.inl h1
        · exact Or.inr ⟨h1, r0, hr0, hmono r0 _ hcaused⟩ }

/-! ## Link paths -/

theorem Trail.consumed_mono {consumed : List result} {seed : String} {n : Nat} {u : String}
    (extra : List result) (h : Trail consumed seed n u) :
    Trail (consumed ++ extra) seed n u := by
  induction h with
  | seed => exact Trail.seed
  | link r _ hr hu herr hv ih => exact Trail.link r ih (List.mem_append_left _ hr) hu herr hv

theorem Trail.path {fetcher : Fetcher} {consumed : List result} {seed : String} {n : Nat}
    {u : String} (hout : ∀ r ∈ consumed, r = fetch fetcher r.url r.depth)
    (h : Trail consumed seed n u) : Path fetcher seed n u := by
  induction h with
  | seed => exact Path.seed
  | link r _ hr hu herr hv ih =>
    have e := hout r hr
    have e1 : (fetcher r.url).err = none := by
      have := congrArg result.err e
      simp only [fetch] at this
      rw [← this]; exact herr
    have e2 : r.urls = (fetcher r.url).urls := by
      have := congrArg result.urls e
      simpa only [fetch] using this
    rw [hu] at e1 e2
    exact Path.link ih e1 (e2 ▸ hv)

theorem Path.reachable {fetcher : Fetcher} {seed : String} {n : Nat} {u : String}
    (h : Path fetcher seed n u) : Reachable fetcher seed u := by
  induction h with
  | seed => exact Reachable.seed
  | link _ herr hv ih => exact Reachable.link ih herr hv

/-- Every recorded dispatch with depth `d` ends a trail of `depth - d` links. -/
theorem trail_run {fetcher : Fetcher} {seed : String} {depth : Int}
    {order : List Nat} {s : CrawlState}
    (h : loop fetcher (start seed depth) order = some s) :
    ∀ l ∈ s.launches, ∃ n : Nat, (n : Int) = depth - l.depth ∧
      Trail s.consumed seed n l.url := by
  refine loop_induction fetcher seed depth
    (fun s => ∀ l ∈ s.launches, ∃ n : Nat, (n : Int) = depth - l.depth ∧
      Trail s.consumed seed n l.url)
    (fun _ => True) ?_ ?_ ?_ order s (fun _ _ => trivial) h
  · intro l hl
    have hl1 : l ∈ [seedLaunch seed depth] := hl
    simp only [List.mem_singleton] at hl1
    subst hl1
    exact ⟨0, by simp [seedLaunch], Trail.seed⟩
  · intro s i p _ hP _ _ l hl
    obtain ⟨n, hn, ht⟩ := hP l hl
    exact ⟨n, hn, ht.consumed_mono _⟩
  · intro s res pre u hinv hP hpre herr hpos hu _ l hl
    have hl1 : l ∈ s.launches ++ [Launch.mk u (res.depth - 1) (mapIndex s.fetched u)
        (some res)] := hl
    rcases List.mem_append.1 hl1 with hl2 | hl2
    · exact hP l hl2
    · simp only [List.mem_singleton] at hl2
      subst hl2
      have hres : res ∈ s.consumed := by rw [hpre]; simp
      obtain ⟨lp, hlp, hlu, hld⟩ := hinv.launch_of_consumed hres
      obtain ⟨n, hn, ht⟩ := hP lp hlp
      refine ⟨n + 1, ?_, Trail.link res (hlu ▸ ht) hres rfl herr hu⟩
      have hgoal : ((n + 1 : Nat) : Int) = depth - (res.depth - 1) := by
        push_cast
        omega
      exact hgoal

/-! ## Breadth-first search -/

theorem keepFirst_append (x y : List String) :
    keepFirst (x ++ y) = keepFirst x ++ (keepFirst y).filter (fun v => !decide (v ∈ x)) := by
  induction x with
  | nil => simp [keepFirst]
  | cons a x ih =>
    have e : List.filter (fun v => v != a)
        (List.filter (fun v => !decide (v ∈ x)) (keepFirst y)) =
        List.filter (fun v => !decide (v ∈ a :: x)) (keepFirst y) := by
      rw [List.filter_filter]
      apply List.filter_congr
      intro v _
      by_cases hva : v = a
      · simp [hva]
      · simp [hva]
    show keepFirst (a :: (x ++ y)) = _
    simp only [keepFirst, ih, List.filter_append, e, List.cons_append]

theorem unseen_nil (seen : List String) : unseen seen [] = [] := rfl

theorem mem_unseen (seen urls : List String) (u : String) :
    u ∈ unseen seen urls ↔ u ∈ urls ∧ u ∉ seen := by
  simp [unseen, mem_keepFirst]

theorem unseen_append (seen a b : List String) :
    unseen seen (a ++ b) = unseen seen a ++ unseen (seen ++ unseen seen a) b := by
  simp only [unseen, List.filter_append, keepFirst_append]
  congr 1
  rw [← keepFirst_filter, List.filter_filter]
  congr 1
  apply List.filter_congr
  intro v _
  by_cases h1 : v ∈ seen
  · simp [h1]
  · simp [h1, mem_keepFirst]

/-- With the marks of `fetched` described by `seen`, the identifiers that the
inner loop dispatches are the unseen ones. -/
theorem novel_eq_unseen (m : GoMap Bool) (seen urls : List String)
    (h : ∀ u, mapIndex m u = true ↔ u ∈ seen) : novel m urls = unseen seen urls := by
  simp only [novel, unseen]
  congr 1
  apply List.filter_congr
  intro u _
  by_cases hu : u ∈ seen
  · simp [hu, (h u).2 hu]
  · have : mapIndex m u = false := by
      cases hm : mapIndex m u with
      | false => rfl
      | true => exact absurd ((h u).1 hm) hu
    simp [hu, this]

theorem Path.zero_eq {fetcher : Fetcher} {seed u : String} (h : Path fetcher seed 0 u) :
    u = seed := by
  cases h
  rfl

theorem Path.succ_inv {fetcher : Fetcher} {seed v : String} {n : Nat}
    (h : Path fetcher seed (n + 1) v) :
    ∃ u, Path fetcher seed n u ∧ (fetcher u).err = none ∧ v ∈ (fetcher u).urls := by
  cases h with
  | link hp herr hv => exact ⟨_, hp, herr, hv⟩

theorem mem_links (fetcher : Fetcher) (u v : String) :
    v ∈ links fetcher u ↔ (fetcher u).err = none ∧ v ∈ (fetcher u).urls := by
  unfold links
  cases h : (fetcher u).err <;> simp

theorem levelKeys_cons (depth : Int) (level : List String) (rest : List (List String)) :
    levelKeys depth (level :: rest) =
      level.map (fun u => (u, depth)) ++ levelKeys (depth - 1) rest := rfl

/-- The level after a level of identifiers at distance `k`, when `seen` holds
the identifiers within distance `k`, holds the identifiers at distance
`k + 1`. -/
theorem mem_next_level {fetcher : Fetcher} {seed : String} {k : Nat}
    {seen level : List String}
    (hseen : ∀ u, u ∈ seen ↔ ∃ m, m ≤ k ∧ Path fetcher seed m u)
    (hlevel : ∀ u, u ∈ level ↔ Dist fetcher seed k u) (u : String) :
    u ∈ unseen seen (level.flatMap (links fetcher)) ↔ Dist fetcher seed (k + 1) u := by
  rw [mem_unseen, List.mem_flatMap]
  constructor
  · rintro ⟨⟨v, hv, hl⟩, hns⟩
    obtain ⟨herr, hu⟩ := (mem_links fetcher v u).1 hl
    refine ⟨Path.link ((hlevel v).1 hv).1 herr hu, ?_⟩
    intro m hm hp
    exact hns ((hseen u).2 ⟨m, by omega, hp⟩)
  · rintro ⟨hp, hmin⟩
    obtain ⟨v, hv, herr, hu⟩ := hp.succ_inv
    refine ⟨⟨v, (hlevel v).2 ⟨hv, ?_⟩, (mem_links fetcher v u).2 ⟨herr, hu⟩⟩, ?_⟩
    · intro m hm hpm
      exact hmin (m + 1) (by omega) (Path.link hpm herr hu)
    · intro hs
      obtain ⟨m, hm, hpm⟩ := (hseen u).1 hs
      exact hmin m (by omega) hpm

/-- The breadth-first levels hold, level by level, the identifiers at each
distance from the seed. -/
theorem mem_levelKeys_bfsLevels (fetcher : Fetcher) (seed : String) (n : Nat) :
    ∀ (k : Nat) (seen level : List String) (D : Int),
      (∀ u, u ∈ seen ↔ ∃ m, m ≤ k ∧ Path fetcher seed m u) →
      (∀ u, u ∈ level ↔ Dist fetcher seed k u) →
      ∀ (u : String) (d : Int), (u, d) ∈ levelKeys D (bfsLevels fetcher n seen level) ↔
        ∃ j : Nat, j ≤ n ∧ d = D - (j : Int) ∧ Dist fetcher seed (k + j) u := by
  induction n with
  | zero =>
    intro k seen level D _ hlevel u d
    simp only [bfsLevels, levelKeys, List.append_nil, List.mem_map, Prod.mk.injEq]
    constructor
    · rintro ⟨v, hv, rfl, rfl⟩
      exact ⟨0, le_refl _, by simp, (hlevel v).1 hv⟩
    · rintro ⟨j, hj, hd, hdist⟩
      have hj0 : j = 0 := by omega
      subst hj0
      exact ⟨u, (hlevel u).2 hdist, rfl, by simp [hd]⟩
  | succ n ih =>
    intro k seen level D hseen hlevel u d
    have hnext := mem_next_level hseen hlevel
    have hseen1 : ∀ v, v ∈ seen ++ unseen seen (level.flatMap (links fetcher)) ↔
        ∃ m, m ≤ k + 1 ∧ Path fetcher seed m v := by
      intro v
      rw [List.mem_append, hseen v, hnext v]
      constructor
      · rintro (⟨m, hm, hp⟩ | ⟨hp, _⟩)
        · exact ⟨m, by omega, hp⟩
        · exact ⟨k + 1, le_refl _, hp⟩
      · rintro ⟨m, hm, hp⟩
        by_cases hex : ∃ m1, m1 ≤ k ∧ Path fetcher seed m1 v
        · exact Or.inl hex
        · right
          have hmk : m = k + 1 := by
            by_contra hne
            exact hex ⟨m, by omega, hp⟩
          subst hmk
          exact ⟨hp, fun m1 hm1 hp1 => hex ⟨m1, by omega, hp1⟩⟩
    have hrec := ih (k + 1) _ _ (D - 1) hseen1 hnext u d
    simp only [bfsLevels, levelKeys_cons, List.mem_append, List.mem_map, Prod.mk.injEq]
    rw [hrec]
    constructor
    · rintro (⟨v, hv, rfl, rfl⟩ | ⟨j, hj, hd, hdist⟩)
      · exact ⟨0, by omega, by simp, (hlevel v).1 hv⟩
      · refine ⟨j + 1, by omega, ?_, ?_⟩
        · push_cast; omega
        · have : k + (j + 1) = k + 1 + j := by omega
          rw [this]; exact hdist
    · rintro ⟨j, hj, hd, hdist⟩
      cases j with
      | zero =>
        left
        exact ⟨u, (hlevel u).2 hdist, rfl, by simp [hd]⟩
      | succ j =>
        right
        refine ⟨j, by omega, ?_, ?_⟩
        · push_cast at hd; omega
        · have : k + 1 + j = k + (j + 1) := by omega
          rw [this]; exact hdist

/-- The breadth-first search from the seed lists, with remaining depth
`depth - k`, exactly the identifiers at distance `k ≤ depth` from the seed. -/
theorem mem_levelKeys_bfs (fetcher : Fetcher) (seed : String) (n : Nat) (D : Int)
    (u : String) (d : Int) :
    (u, d) ∈ levelKeys D (bfs fetcher seed n) ↔
      ∃ j : Nat, j ≤ n ∧ d = D - (j : Int) ∧ Dist fetcher seed j u := by
  have h := mem_levelKeys_bfsLevels fetcher seed n 0 [seed] [seed] D
    (by
      intro v
      simp only [List.mem_singleton]
      constructor
      · rintro rfl
        exact ⟨0, le_refl _, Path.seed⟩
      · rintro ⟨m, hm, hp⟩
        have hm0 : m = 0 := by omega
        subst hm0
        exact hp.zero_eq)
    (by
      intro v
      simp only [List.mem_singleton]
      constructor
      · rintro rfl
        exact ⟨Path.seed, fun m hm => absurd hm (by omega)⟩
      · rintro ⟨hp, _⟩
        exact hp.zero_eq) u d
  simpa [bfs] using h

/-- A path to an identifier gives its distance, which is no longer. -/
theorem Path.dist {fetcher : Fetcher} {seed u : String} :
    ∀ (n : Nat), Path fetcher seed n u → ∃ k, k ≤ n ∧ Dist fetcher seed k u := by
  intro n
  induction n using Nat.strong_induction_on with
  | _ n ih =>
    intro hp
    by_cases hmin : ∀ m, m < n → ¬ Path fetcher seed m u
    · exact ⟨n, le_refl _, hp, hmin⟩
    · push_neg at hmin
      obtain ⟨m, hm, hpm⟩ := hmin
      obtain ⟨k, hk, hd⟩ := ih m hm hpm
      exact ⟨k, by omega, hd⟩

/-! ## Runs in dispatch order -/

theorem map_fst_key (ls : List Launch) :
    (ls.map Launch.key).map Prod.fst = ls.map Launch.url := by
  rw [List.map_map]
  rfl

theorem fifo_add (a b : Nat) : fifo (a + b) = fifo a ++ fifo b :=
  List.replicate_add a b 0

theorem fifo_succ (n : Nat) : fifo (n + 1) = 0 :: fifo n := rfl

theorem bfsLevels_eq_cons (fetcher : Fetcher) (n : Nat) (seen level : List String) :
    bfsLevels fetcher n seen level = level :: (bfsLevels fetcher n seen level).tail := by
  cases n <;> rfl

/-- The iteration that receives the outcome of the oldest outstanding
dispatch: its children are the unseen links of the page when the depth is
positive, and go to the end of the outstanding retrievals. -/
theorem iteration_fifo {fetcher : Fetcher} {seed : String} {depth : Int} {s : CrawlState}
    (hinv : Inv fetcher seed depth s) {u : String} {d : Int} {q : List (String × Int)}
    (hq : s.inflight = (u, d) :: q) :
    ∃ s1 kids, iteration fetcher s 0 = some s1 ∧ Inv fetcher seed depth s1 ∧
      kids = (if 0 < d then unseen (s.launches.map Launch.url) (links fetcher u) else []) ∧
      s1.inflight = q ++ kids.map (fun v => (v, d - 1)) ∧
      s1.launches.map Launch.key =
        s.launches.map Launch.key ++ kids.map (fun v => (v, d - 1)) ∧
      s1.consumed.map result.key = s.consumed.map result.key ++ [(u, d)] := by
  have hpos : 0 < s.fetching := by
    have := hinv.counter
    rw [hq] at this
    simp at this
    omega
  have hget : s.inflight.get? 0 = some (u, d) := by rw [hq]; rfl
  have hit : iteration fetcher s 0 = some (process (fetch fetcher u d)
      { s with inflight := s.inflight.eraseIdx 0 }) := by
    rw [iteration_eq, if_pos hpos, hget]
  have herase : s.inflight.eraseIdx 0 = q := by rw [hq]; rfl
  refine ⟨_, _, hit, hinv.iteration hit, rfl, ?_⟩
  rw [process_eq]
  by_cases hgo : (fetch fetcher u d).err = none ∧ 0 < (fetch fetcher u d).depth
  · have herr : (fetcher u).err = none := hgo.1
    have hd : 0 < d := hgo.2
    have hkids : novel (consume (fetch fetcher u d) 0 s).fetched (fetch fetcher u d).urls =
        unseen (s.launches.map Launch.url) (links fetcher u) := by
      have e : links fetcher u = (fetcher u).urls := by simp [links, herr]
      rw [e]
      exact novel_eq_unseen _ _ _ hinv.marks
    rw [if_pos hgo, follow_eq, hkids, if_pos hd]
    refine ⟨?_, ?_, ?_⟩
    · simp [dispatched, consume, herase, fetch]
    · simp [dispatched, consume, fetch, Launch.key, childLaunch, Function.comp_def]
    · simp [dispatched, consume, fetch, result.key]
  · have hkids : (if 0 < d then unseen (s.launches.map Launch.url) (links fetcher u)
        else []) = [] := by
      by_cases hd : 0 < d
      · have herr : (fetcher u).err ≠ none := fun he => hgo ⟨he, hd⟩
        have e : links fetcher u = [] := by
          unfold links
          cases h : (fetcher u).err with
          | none => exact absurd h herr
          | some _ => rfl
        rw [if_pos hd, e, unseen_nil]
      · rw [if_neg hd]
    rw [if_neg hgo, hkids]
    refine ⟨?_, ?_, ?_⟩
    · simp [consume, herase]
    · simp [consume]
    · simp [consume, fetch, result.key]

/-- A run in dispatch order through the rest of a level of positive depth. -/
theorem fifo_level {fetcher : Fetcher} {seed : String} {depth : Int} {d : Int}
    (hd : 0 < d) :
    ∀ (rest acc : List String) (s : CrawlState), Inv fetcher seed depth s →
      s.inflight = rest.map (fun v => (v, d)) ++ acc.map (fun v => (v, d - 1)) →
      ∃ s1, loop fetcher s (fifo rest.length) = some s1 ∧ Inv fetcher seed depth s1 ∧
        s1.inflight = (acc ++ unseen (s.launches.map Launch.url)
          (rest.flatMap (links fetcher))).map (fun v => (v, d - 1)) ∧
        s1.launches.map Launch.key = s.launches.map Launch.key ++
          (unseen (s.launches.map Launch.url)
            (rest.flatMap (links fetcher))).map (fun v => (v, d - 1)) ∧
        s1.consumed.map result.key = s.consumed.map result.key ++
          rest.map (fun v => (v, d)) := by
  intro rest
  induction rest with
  | nil =>
    intro acc s hinv hq
    refine ⟨s, rfl, hinv, ?_, ?_, ?_⟩
    · simpa [unseen_nil] using hq
    · simp [unseen_nil]
    · simp
  | cons u rest ih =>
    intro acc s hinv hq
    have hq1 : s.inflight = (u, d) ::
        (rest.map (fun v => (v, d)) ++ acc.map (fun v => (v, d - 1))) := by
      simpa using hq
    obtain ⟨s1, kids, hit, hinv1, hkids, hin1, hla1, hco1⟩ := iteration_fifo hinv hq1
    rw [if_pos hd] at hkids
    have hin2 : s1.inflight = rest.map (fun v => (v, d)) ++
        (acc ++ kids).map (fun v => (v, d - 1)) := by
      rw [hin1]; simp
    obtain ⟨s2, hl2, hinv2, hin3, hla2, hco2⟩ := ih (acc ++ kids) s1 hinv1 hin2
    have hurl1 : s1.launches.map Launch.url = s.launches.map Launch.url ++ kids := by
      have := congrArg (List.map Prod.fst) hla1
      rw [map_fst_key, List.map_append, map_fst_key, List.map_map] at this
      simpa [Function.comp_def] using this
    have hsplit : unseen (s.launches.map Launch.url) ((u :: rest).flatMap (links fetcher)) =
        kids ++ unseen (s1.launches.map Launch.url) (rest.flatMap (links fetcher)) := by
      rw [List.flatMap_cons, unseen_append, ← hkids, hurl1]
    refine ⟨s2, ?_, hinv2, ?_, ?_, ?_⟩
    · rw [List.length_cons, fifo_succ]
      simp only [loop, hit]
      exact hl2
    · rw [hin3, hsplit, List.append_assoc]
    · rw [hla2, hla1, hsplit]
      simp
    · rw [hco2, hco1]
      simp

/-- A run in dispatch order through a level of exhausted depth. -/
theorem fifo_drain {fetcher : Fetcher} {seed : String} {depth : Int} {d : Int}
    (hd : d ≤ 0) :
    ∀ (rest : List String) (s : CrawlState), Inv fetcher seed depth s →
      s.inflight = rest.map (fun v => (v, d)) →
      ∃ s1, loop fetcher s (fifo rest.length) = some s1 ∧ Inv fetcher seed depth s1 ∧
        s1.inflight = [] ∧
        s1.launches.map Launch.key = s.launches.map Launch.key ∧
        s1.consumed.map result.key = s.consumed.map result.key ++
          rest.map (fun v => (v, d)) := by
  intro rest
  induction rest with
  | nil =>
    intro s hinv hq
    exact ⟨s, rfl, hinv, by simpa using hq, rfl, by simp⟩
  | cons u rest ih =>
    intro s hinv hq
    have hq1 : s.inflight = (u, d) :: rest.map (fun v => (v, d)) := by simpa using hq
    obtain ⟨s1, kids, hit, hinv1, hkids, hin1, hla1, hco1⟩ := iteration_fifo hinv hq1
    rw [if_neg (not_lt.2 hd)] at hkids
    subst hkids
    have hin2 : s1.inflight = rest.map (fun v => (v, d)) := by simpa using hin1
    obtain ⟨s2, hl2, hinv2, hin3, hla2, hco2⟩ := ih s1 hinv1 hin2
    refine ⟨s2, ?_, hinv2, hin3, ?_, ?_⟩
    · rw [List.length_cons, fifo_succ]
      simp only [loop, hit]
      exact hl2
    · rw [hla2, hla1]; simp
    · rw [hco2, hco1]; simp

/-- A run in dispatch order from the head of a level to the exit of the
loop dispatches and consumes the levels of the breadth-first search. -/
theorem fifo_levels {fetcher : Fetcher} {seed : String} {depth : Int} :
    ∀ (n : Nat) (level : List String) (s : CrawlState), Inv fetcher seed depth s →
      s.inflight = level.map (fun v => (v, (n : Int))) →
      ∃ m s1, loop fetcher s (fifo m) = some s1 ∧ Inv fetcher seed depth s1 ∧
        s1.inflight = [] ∧
        s1.launches.map Launch.key = s.launches.map Launch.key ++
          levelKeys ((n : Int) - 1)
            (bfsLevels fetcher n (s.launches.map Launch.url) level).tail ∧
        s1.consumed.map result.key = s.consumed.map result.key ++
          levelKeys (n : Int) (bfsLevels fetcher n (s.launches.map Launch.url) level) := by
  intro n
  induction n with
  | zero =>
    intro level s hinv hq
    obtain ⟨s1, hl, hinv1, hin, hla, hco⟩ := fifo_drain (le_refl (0 : Int)) level s hinv
      (by simpa using hq)
    refine ⟨level.length, s1, hl, hinv1, hin, ?_, ?_⟩
    · simp [hla, bfsLevels, levelKeys]
    · simp [hco, bfsLevels, levelKeys]
  | succ n ih =>
    intro level s hinv hq
    have hpos : (0 : Int) < ((n + 1 : Nat) : Int) := by push_cast; omega
    have hpred : ((n + 1 : Nat) : Int) - 1 = (n : Int) := by push_cast; omega
    obtain ⟨s1, hl1, hinv1, hin1, hla1, hco1⟩ := fifo_level hpos level [] s hinv
      (by simpa using hq)
    rw [hpred] at hin1 hla1
    have hurl1 : s1.launches.map Launch.url = s.launches.map Launch.url ++
        unseen (s.launches.map Launch.url) (level.flatMap (links fetcher)) := by
      have := congrArg (List.map Prod.fst) hla1
      rw [map_fst_key, List.map_append, map_fst_key, List.map_map] at this
      simpa [Function.comp_def] using this
    obtain ⟨m, s2, hl2, hinv2, hin2, hla2, hco2⟩ := ih _ s1 hinv1 (by simpa using hin1)
    rw [hurl1] at hla2 hco2
    refine ⟨level.length + m, s2, ?_, hinv2, hin2, ?_, ?_⟩
    · rw [fifo_add, loop_append, hl1]
      exact hl2
    · rw [hla2, hla1, hpred]
      simp only [bfsLevels, List.tail_cons, List.append_assoc]
      congr 1
      conv_rhs => rw [bfsLevels_eq_cons, levelKeys_cons]
    · rw [hco2, hco1]
      simp only [bfsLevels, levelKeys_cons, hpred, List.append_assoc]

/-- The run in dispatch order has one exit. -/
theorem fifo_unique {fetcher : Fetcher} :
    ∀ (m n : Nat) (s0 a b : CrawlState), loop fetcher s0 (fifo m) = some a →
      ¬ 0 < a.fetching → loop fetcher s0 (fifo n) = some b → ¬ 0 < b.fetching → a = b := by
  intro m
  induction m with
  | zero =>
    intro n s0 a b ha hza hb _
    simp only [fifo, List.replicate_zero, loop, Option.some.injEq] at ha
    subst ha
    cases n with
    | zero =>
      simp only [fifo, List.replicate_zero, loop, Option.some.injEq] at hb
      exact hb
    | succ n =>
      rw [fifo_succ] at hb
      simp only [loop] at hb
      split at hb
      · rename_i s1 h1
        exact absurd (iteration_some h1).1 hza
      · exact absurd hb (by simp)
  | succ m ih =>
    intro n s0 a b ha hza hb hzb
    rw [fifo_succ] at ha
    simp only [loop] at ha
    split at ha
    · rename_i s1 h1
      cases n with
      | zero =>
        simp only [fifo, List.replicate_zero, loop, Option.some.injEq] at hb
        subst hb
        exact absurd (iteration_some h1).1 hzb
      | succ n =>
        rw [fifo_succ] at hb
        simp only [loop, h1] at hb
        exact ih n s1 a b ha hza hb hzb
    · exact absurd ha (by simp)

/-! ## The claims -/

/-- C1 (uniqueness). At every loop head of every run of `Crawl`, for every
fetcher, seed, depth and arrival order, the identifiers passed to `dispatch`
so far (each is passed to `Fetcher.Fetch` once, by the goroutine that
`dispatch` starts) are pairwise distinct, every call of `dispatch` found its
identifier unmarked in `fetched`, and the outcomes received so far belong to
pairwise distinct identifiers; the same holds when the run is complete. -/
theorem crawl_unique (fetcher : Fetcher) (seed : String) (depth : Int) (order : List Nat)
    (s : CrawlState) (h : loop fetcher (start seed depth) order = some s) :
    (s.launches.map Launch.url).Nodup ∧
    (∀ l ∈ s.launches, l.marked = false) ∧
    (s.consumed.map result.url).Nodup ∧
    (∀ s1, Crawl seed depth fetcher order = some s1 →
      (s1.launches.map Launch.url).Nodup ∧ (s1.consumed.map result.url).Nodup) := by
  have hinv := Inv.run h
  refine ⟨hinv.nodup, hinv.fresh, hinv.consumed_nodup, ?_⟩
  intro s1 hs1
  rw [Crawl_of_loop h] at hs1
  split at hs1
  · exact absurd hs1 (by simp)
  · simp only [Option.some.injEq] at hs1
    rw [← hs1]
    exact ⟨hinv.nodup, hinv.consumed_nodup⟩

theorem crawl_unique_witness :
    ∃ s, loop fetcher.Fetch (start "http://golang.org/" 4) [0, 1, 0, 0, 0] = some s ∧
      s.launches.map Launch.url =
        ["http://golang.org/", "http://golang.org/pkg/", "http://golang.org/cmd/",
         "http://golang.org/pkg/fmt/", "http://golang.org/pkg/os/"] ∧
      (s.launches.map Launch.url).Nodup ∧ ∀ l ∈ s.launches, l.marked = false :=
  ⟨_, rfl, by decide,
    (crawl_unique fetcher.Fetch "http://golang.org/" 4 [0, 1, 0, 0, 0] _ rfl).1,
    (crawl_unique fetcher.Fetch "http://golang.org/" 4 [0, 1, 0, 0, 0] _ rfl).2.1⟩

/-- C2 (termination). For every fetcher, seed and depth (in particular every
depth `≥ 0`) and every arrival order: a run of the coordinator loop has at
most `cost fetcher depth seed` iterations, so none is infinite; at a loop head
where the loop goes on, the receive can take every outstanding outcome and
there is one; the run can always be continued to the exit of the loop; and at
the exit `fetching` is 0, the number of iterations equals the number of
dispatches, and the dispatched identifiers are distinct and reachable from
the seed, hence at most as many as any finite set holding the reachable
identifiers. -/
theorem crawl_terminates (fetcher : Fetcher) (seed : String) (depth : Int)
    (order : List Nat) (s : CrawlState)
    (h : loop fetcher (start seed depth) order = some s) :
    order.length ≤ cost fetcher depth.toNat seed ∧
    (0 < s.fetching →
      s.inflight ≠ [] ∧ ∀ i, i < s.inflight.length → (iteration fetcher s i).isSome) ∧
    (∃ rest s1, Crawl seed depth fetcher (order ++ rest) = some s1) ∧
    (¬ 0 < s.fetching →
      s.fetching = 0 ∧ order.length = s.launches.length ∧
      (s.launches.map Launch.url).Nodup ∧
      (∀ l ∈ s.launches, Reachable fetcher seed l.url) ∧
      ∀ R : Finset String, (∀ u, Reachable fetcher seed u → u ∈ R) →
        s.launches.length ≤ R.card) := by
  have hinv := Inv.run h
  have hlen := loop_consumed_length order h
  have hperm := hinv.perm.length_eq
  simp only [List.length_map, List.length_append] at hperm
  have hc0 : (start seed depth).consumed.length = 0 := rfl
  refine ⟨?_, ?_, ?_, ?_⟩
  · have := weight_loop order h
    rw [weight_start] at this
    omega
  · intro hpos
    have hc := hinv.counter
    constructor
    · intro he
      rw [he] at hc
      simp at hc
      omega
    · intro i hi
      exact (iteration_isSome fetcher hc i).2 hi
  · exact Crawl_completes h
  · intro hz
    have hc := hinv.counter
    have h0 : s.inflight.length = 0 := by omega
    refine ⟨by omega, by omega, hinv.nodup, hinv.reach, ?_⟩
    intro R hR
    have := length_le_card_of_nodup hinv.nodup R (by
      intro u hu
      obtain ⟨l, hl, rfl⟩ := List.mem_map.1 hu
      exact hR _ (hinv.reach l hl))
    simpa using this

theorem crawl_terminates_witness :
    ∃ s, loop abc.Fetch (start "A" 1) [0, 1, 0] = some s ∧ ¬ 0 < s.fetching ∧
      s.fetching = 0 ∧ [0, 1, 0].length = s.launches.length :=
  ⟨_, rfl, by decide,
    ((crawl_terminates abc.Fetch "A" 1 [0, 1, 0] _ rfl).2.2.2 (by decide)).1,
    ((crawl_terminates abc.Fetch "A" 1 [0, 1, 0] _ rfl).2.2.2 (by decide)).2.1⟩

/-- C3 (in-flight counter). At every evaluation of the loop condition of
`Crawl`, `fetching` is the number of dispatches minus the number of outcomes
consumed, which is the number of outstanding retrievals; it is not negative;
the loop goes on to the receive only when an outcome is outstanding, and the
receive takes an outstanding outcome; the loop exits, and the channel is
closed, exactly when no outcome is outstanding. -/
theorem counter_invariant (fetcher : Fetcher) (seed : String) (depth : Int)
    (order : List Nat) (s : CrawlState)
    (h : loop fetcher (start seed depth) order = some s) :
    s.fetching = (s.launches.length : Int) - (s.consumed.length : Int) ∧
    s.fetching = (s.inflight.length : Int) ∧
    0 ≤ s.fetching ∧
    (0 < s.fetching → s.inflight ≠ []) ∧
    (∀ i, (iteration fetcher s i).isSome ↔ i < s.inflight.length) ∧
    (¬ 0 < s.fetching ↔ s.inflight = []) ∧
    (Crawl seed depth fetcher order = some { s with closed := true } ↔ s.inflight = []) ∧
    s.closed = false := by
  have hinv := Inv.run h
  have hperm := hinv.perm.length_eq
  simp only [List.length_map, List.length_append] at hperm
  have hc := hinv.counter
  have hnil : ¬ 0 < s.fetching ↔ s.inflight = [] := by
    rw [← List.length_eq_zero]
    omega
  refine ⟨by omega, hc, by omega, ?_, iteration_isSome fetcher hc, hnil, ?_, hinv.opened⟩
  · intro hpos he
    exact absurd (hnil.2 he) (not_not.2 hpos)
  · rw [Crawl_of_loop h, ← hnil]
    constructor
    · intro hx hpos
      rw [if_pos hpos] at hx
      exact absurd hx (by simp)
    · intro hz
      rw [if_neg hz]

theorem counter_invariant_witness :
    ∃ s, loop abc.Fetch (start "A" 1) [0] = some s ∧ s.fetching = 2 ∧
      s.fetching = (s.launches.length : Int) - (s.consumed.length : Int) ∧
      s.inflight = [("B", 0), ("C", 0)] :=
  ⟨_, rfl, by decide,
    (counter_invariant abc.Fetch "A" 1 [0] _ rfl).1, by decide⟩

/-- C4 (depth respect). At every loop head of every run of `Crawl` the first
recorded dispatch is the seed's, and every other one was made while
processing a consumed outcome without error whose recorded depth is `> 0`,
for an identifier of its outbound list, with depth exactly one less.  For a
depth `≥ 0` all recorded depths (of dispatches, of outcomes consumed and of
outstanding retrievals) lie between 0 and that depth.  An iteration that
receives an outcome of recorded depth `≤ 0` dispatches nothing. -/
theorem depth_respected (fetcher : Fetcher) (seed : String) (depth : Int)
    (order : List Nat) (s : CrawlState)
    (h : loop fetcher (start seed depth) order = some s) :
    (∃ rest, s.launches = seedLaunch seed depth :: rest ∧
      ∀ l ∈ rest, ∃ r ∈ s.consumed, l.parent = some r ∧ r.err = none ∧ 0 < r.depth ∧
        l.depth = r.depth - 1 ∧ l.url ∈ r.urls) ∧
    (0 ≤ depth →
      (∀ l ∈ s.launches, 0 ≤ l.depth ∧ l.depth ≤ depth) ∧
      (∀ r ∈ s.consumed, 0 ≤ r.depth ∧ r.depth ≤ depth) ∧
      (∀ p ∈ s.inflight, 0 ≤ p.2 ∧ p.2 ≤ depth)) ∧
    (∀ i p s1, s.inflight.get? i = some p → p.2 ≤ 0 → iteration fetcher s i = some s1 →
      s1.launches = s.launches ∧ s1.inflight = s.inflight.eraseIdx i) := by
  have hinv := Inv.run h
  refine ⟨hinv.origin, ?_, ?_⟩
  · intro hd
    refine ⟨fun l hl => ⟨(hinv.range l hl).2 hd, (hinv.range l hl).1⟩, ?_, ?_⟩
    · intro r hr
      obtain ⟨l, hl, _, hld⟩ := hinv.launch_of_consumed hr
      rw [← hld]
      exact ⟨(hinv.range l hl).2 hd, (hinv.range l hl).1⟩
    · intro p hp
      obtain ⟨l, hl, _, hld⟩ := hinv.launch_of_inflight hp
      rw [← hld]
      exact ⟨(hinv.range l hl).2 hd, (hinv.range l hl).1⟩
  · intro i p s1 hp hle hs1
    obtain ⟨_, q, hq, hs⟩ := iteration_some hs1
    rw [hp] at hq
    cases hq
    have hno : ¬ ((fetch fetcher p.1 p.2).err = none ∧ 0 < (fetch fetcher p.1 p.2).depth) := by
      intro hgo
      have : 0 < p.2 := hgo.2
      omega
    rw [hs, process_eq, if_neg hno]
    exact ⟨rfl, rfl⟩

theorem depth_respected_witness :
    ∃ s, loop abc.Fetch (start "A" 1) [0, 1] = some s ∧
      s.launches = [seedLaunch "A" 1, childLaunch (fetch abc.Fetch "A" 1) "B",
        childLaunch (fetch abc.Fetch "A" 1) "C"] ∧
      ∀ l ∈ s.launches, 0 ≤ l.depth ∧ l.depth ≤ 1 :=
  ⟨_, rfl, by decide,
    ((depth_respected abc.Fetch "A" 1 [0, 1] _ rfl).2.1 (by decide)).1⟩

/-- C5 (failure isolation). At a loop head of a run of `Crawl`, the iteration
that receives an outcome whose `err` is not nil changes only this: `fetching`
goes down by one, the outcome leaves the outstanding retrievals, and the one
line with the error message is written; `fetched` is unchanged and nothing is
dispatched.  The run goes on: it can be continued to a complete run, and in
every complete run that continues it the outcome of every other retrieval
that was outstanding is consumed and its line written. -/
theorem failure_isolated (fetcher : Fetcher) (seed : String) (depth : Int)
    (order : List Nat) (s : CrawlState)
    (h : loop fetcher (start seed depth) order = some s)
    (i : Nat) (p : String × Int) (msg : String)
    (hp : s.inflight.get? i = some p) (herr : (fetcher p.1).err = some msg) :
    iteration fetcher s i = some { s with
      fetching := s.fetching - 1
      inflight := s.inflight.eraseIdx i
      stdout := s.stdout ++ [Line.diag msg]
      consumed := s.consumed ++ [fetch fetcher p.1 p.2] } ∧
    (∃ rest s2, Crawl seed depth fetcher (order ++ i :: rest) = some s2) ∧
    (∀ rest s2, Crawl seed depth fetcher (order ++ i :: rest) = some s2 →
      ∀ q ∈ s.inflight.eraseIdx i,
        fetch fetcher q.1 q.2 ∈ s2.consumed ∧ lineOf (fetch fetcher q.1 q.2) ∈ s2.stdout) := by
  have hinv := Inv.run h
  have hlt : i < s.inflight.length := (List.get?_eq_some.1 hp).1
  have hpos : 0 < s.fetching := by have := hinv.counter; omega
  have hno : ¬ ((fetch fetcher p.1 p.2).err = none ∧ 0 < (fetch fetcher p.1 p.2).depth) := by
    intro hgo
    have h1 : (fetcher p.1).err = none := hgo.1
    rw [herr] at h1
    exact absurd h1 (by simp)
  have hline : lineOf (fetch fetcher p.1 p.2) = Line.diag msg := by
    simp [lineOf, fetch, herr]
  have hit : iteration fetcher s i = some (consume (fetch fetcher p.1 p.2) i s) := by
    rw [iteration_eq, if_pos hpos, hp]
    simp only [process_eq, if_neg hno]
  have hit1 := hit
  simp only [consume, hline] at hit1
  have hl1 : loop fetcher (start seed depth) (order ++ [i]) =
      some (consume (fetch fetcher p.1 p.2) i s) := by
    rw [loop_append, h]
    simp only [loop, hit]
  have hinv1 := Inv.run hl1
  refine ⟨hit1, ?_, ?_⟩
  · obtain ⟨rest, s2, h2⟩ := Crawl_completes hl1
    exact ⟨rest, s2, by simpa using h2⟩
  · intro rest s2 h2 q hq
    obtain ⟨s0, hs0, hz, hs2⟩ := Crawl_some h2
    have hinv0 := Inv.run hs0
    have hsplit : order ++ i :: rest = (order ++ [i]) ++ rest := by simp
    rw [hsplit, loop_append, hl1] at hs0
    obtain ⟨extra, hex⟩ := loop_launches rest hs0
    obtain ⟨l, hl, hlu, hld⟩ := hinv1.launch_of_inflight hq
    have hl0 : l ∈ s0.launches := by
      rw [hex]
      exact List.mem_append_left _ hl
    have hc := hinv0.consumed_at_exit hz hl0
    rw [hlu, hld] at hc
    have hcons : s2.consumed = s0.consumed := by rw [hs2]
    have hout : s2.stdout = s0.consumed.map lineOf := by rw [hs2]; exact hinv0.out
    rw [hcons, hout]
    exact ⟨hc, List.mem_map_of_mem _ hc⟩

theorem failure_isolated_witness :
    ∃ s, loop fetcher.Fetch (start "http://golang.org/" 4) [0] = some s ∧
      s.inflight.get? 1 = some ("http://golang.org/cmd/", 3) ∧
      (fetcher.Fetch "http://golang.org/cmd/").err = some "not found: http://golang.org/cmd/" ∧
      iteration fetcher.Fetch s 1 = some { s with
        fetching := s.fetching - 1
        inflight := s.inflight.eraseIdx 1
        stdout := s.stdout ++ [Line.diag "not found: http://golang.org/cmd/"]
        consumed := s.consumed ++ [fetch fetcher.Fetch "http://golang.org/cmd/" 3] } :=
  ⟨_, rfl, rfl, by decide,
    (failure_isolated fetcher.Fetch "http://golang.org/" 4 [0] _ rfl 1
      ("http://golang.org/cmd/", 3) "not found: http://golang.org/cmd/" rfl (by decide)).1⟩

/-- C6 (child dispatch order and de-duplication). The iteration that receives
a successful outcome of recorded depth `> 0` dispatches exactly the
identifiers of `novel`: the outbound list without the identifiers marked in
`fetched` and with every repeated identifier reduced to its first occurrence,
in the original order (a duplicate-free sublist of the outbound list holding
exactly its unmarked identifiers); each with depth one less than the
outcome's; and after the decrement `fetching` grows by their number. -/
theorem children_dispatched (fetcher : Fetcher) (s : CrawlState) (i : Nat)
    (p : String × Int) (hgo : 0 < s.fetching) (hp : s.inflight.get? i = some p)
    (herr : (fetcher p.1).err = none) (hpos : 0 < p.2) :
    ∃ s1, iteration fetcher s i = some s1 ∧
      s1.launches = s.launches ++ (novel s.fetched (fetcher p.1).urls).map
        (fun u => { url := u, depth := p.2 - 1, marked := false,
                    parent := some (fetch fetcher p.1 p.2) }) ∧
      s1.inflight = s.inflight.eraseIdx i ++
        (novel s.fetched (fetcher p.1).urls).map (fun u => (u, p.2 - 1)) ∧
      s1.fetching = s.fetching - 1 + ((novel s.fetched (fetcher p.1).urls).length : Int) ∧
      novel s.fetched (fetcher p.1).urls =
        keepFirst ((fetcher p.1).urls.filter (fun u => !mapIndex s.fetched u)) ∧
      (novel s.fetched (fetcher p.1).urls).Nodup ∧
      (novel s.fetched (fetcher p.1).urls).Sublist (fetcher p.1).urls ∧
      ∀ u, u ∈ novel s.fetched (fetcher p.1).urls ↔
        u ∈ (fetcher p.1).urls ∧ mapIndex s.fetched u = false := by
  have hyes : (fetch fetcher p.1 p.2).err = none ∧ 0 < (fetch fetcher p.1 p.2).depth :=
    ⟨herr, hpos⟩
  refine ⟨_, by rw [iteration_eq, if_pos hgo, hp], ?_, ?_, ?_, rfl, keepFirst_nodup _,
    (keepFirst_sublist _).trans (List.filter_sublist _), mem_novel _ _⟩
  · rw [process_eq, if_pos hyes, follow_eq]
    rfl
  · rw [process_eq, if_pos hyes, follow_eq]
    rfl
  · rw [process_eq, if_pos hyes, follow_eq]
    rfl

theorem children_dispatched_witness :
    novel [("B", true), ("A", true)] ["C", "A", "D", "C", "B", "D"] = ["C", "D"] ∧
    ∃ s1, iteration fetcher.Fetch (start "http://golang.org/pkg/" 2) 0 = some s1 ∧
      s1.launches.map Launch.key = [("http://golang.org/pkg/", 2), ("http://golang.org/", 1),
        ("http://golang.org/cmd/", 1), ("http://golang.org/pkg/fmt/", 1),
        ("http://golang.org/pkg/os/", 1)] ∧
      s1.fetching = 4 :=
  ⟨by decide,
    (children_dispatched fetcher.Fetch (start "http://golang.org/pkg/" 2) 0
      ("http://golang.org/pkg/", 2) (by decide) rfl (by decide) (by decide)).elim
      (fun s1 h => ⟨s1, h.1, by rw [h.2.1]; decide, by rw [h.2.2.2.1]; decide⟩)⟩

/-- C7 (test double lookup). `fakeFetcher.Fetch(url)` returns an error exactly
when `url` is not a key of the map; then the body is empty, the url list is
nil and the message is `not found: ` followed by `url`.  When `url` is a key
the stored body and url list are returned unchanged with a nil error. -/
theorem fake_fetch_lookup (f : fakeFetcher) (url : String) :
    ((f.Fetch url).err ≠ none ↔ url ∉ f.map Prod.fst) ∧
    (url ∉ f.map Prod.fst →
      f.Fetch url = { body := "", urls := [], err := some ("not found: " ++ url) }) ∧
    (url ∈ f.map Prod.fst → ∃ res, (url, res) ∈ f ∧ f.lookup url = some res ∧
      f.Fetch url = { body := res.body, urls := res.urls, err := none }) ∧
    (∀ res, (f.map Prod.fst).Nodup → (url, res) ∈ f →
      f.Fetch url = { body := res.body, urls := res.urls, err := none }) := by
  refine ⟨?_, ?_, ?_, ?_⟩
  · rw [← lookup_eq_none_iff_not_key]
    cases h : f.lookup url <;> simp [fakeFetcher.Fetch, h]
  · intro hk
    have h := (lookup_eq_none_iff_not_key f url).2 hk
    simp [fakeFetcher.Fetch, h]
  · intro hk
    cases h : f.lookup url with
    | none => exact absurd hk ((lookup_eq_none_iff_not_key f url).1 h)
    | some res => exact ⟨res, lookup_mem f url res h, rfl, by simp [fakeFetcher.Fetch, h]⟩
  · intro res hn hm
    have h := lookup_of_mem_nodup f url res hn hm
    simp [fakeFetcher.Fetch, h]

theorem fake_fetch_lookup_witness :
    fetcher.Fetch "http://golang.org/cmd/" =
      { body := "", urls := [], err := some "not found: http://golang.org/cmd/" } ∧
    fetcher.Fetch "http://golang.org/pkg/os/" =
      { body := "Package os", urls := ["http://golang.org/", "http://golang.org/pkg/"],
        err := none } :=
  ⟨(fake_fetch_lookup fetcher "http://golang.org/cmd/").2.1 (by decide),
    (fake_fetch_lookup fetcher "http://golang.org/pkg/os/").2.2.2
      { body := "Package os", urls := ["http://golang.org/", "http://golang.org/pkg/"] }
      (by decide) (by decide)⟩

/-- C8 (emission). At every loop head of every run of `Crawl` the output is
one line per outcome consumed, in the order of consumption: when the fetch
succeeded the text `found: `, the identifier, a blank, the quoted body and a
newline; when it failed the error message and a newline.  Every iteration
writes exactly that one line and nothing else writes.  So the number of lines
is the number of iterations, no identifier is reported as found twice, and at
the exit of the loop the number of lines is the number of dispatches (of
`Fetch` calls), each dispatch having its line; closing the channel writes
nothing. -/
theorem emission (fetcher : Fetcher) (seed : String) (depth : Int)
    (order : List Nat) (s : CrawlState)
    (h : loop fetcher (start seed depth) order = some s) :
    s.stdout = s.consumed.map lineOf ∧
    s.stdout.length = order.length ∧
    (∀ r ∈ s.consumed, r = fetch fetcher r.url r.depth ∧
      ∃ l ∈ s.launches, l.url = r.url ∧ l.depth = r.depth) ∧
    (foundUrls s.stdout).Nodup ∧
    (∀ i p s1, s.inflight.get? i = some p → iteration fetcher s i = some s1 →
      s1.stdout = s.stdout ++
        [match (fetcher p.1).err with
         | some msg => Line.diag msg
         | none => Line.found p.1 (fetcher p.1).body]) ∧
    (¬ 0 < s.fetching →
      s.stdout.length = s.launches.length ∧
      ∀ l ∈ s.launches, lineOf (fetch fetcher l.url l.depth) ∈ s.stdout) ∧
    (∀ s1, Crawl seed depth fetcher order = some s1 → s1.stdout = s.stdout) ∧
    (∀ quote : String → String,
      s.stdout.map (Line.render quote) = s.consumed.map (fun r =>
        match (fetcher r.url).err with
        | some msg => msg ++ "\n"
        | none => "found: " ++ r.url ++ " " ++ quote (fetcher r.url).body ++ "\n")) ∧
    (∀ (quote : String → String) i p s1, s.inflight.get? i = some p →
      iteration fetcher s i = some s1 →
      s1.stdout.map (Line.render quote) = s.stdout.map (Line.render quote) ++
        [match (fetcher p.1).err with
         | some msg => msg ++ "\n"
         | none => "found: " ++ p.1 ++ " " ++ quote (fetcher p.1).body ++ "\n"]) ∧
    (¬ 0 < s.fetching → ∀ (quote : String → String), ∀ l ∈ s.launches,
      (match (fetcher l.url).err with
       | some msg => msg ++ "\n"
       | none => "found: " ++ l.url ++ " " ++ quote (fetcher l.url).body ++ "\n") ∈
        s.stdout.map (Line.render quote)) := by
  have hinv := Inv.run h
  have hlen := loop_consumed_length order h
  have hc0 : (start seed depth).consumed.length = 0 := rfl
  have hperm := hinv.perm.length_eq
  simp only [List.length_map, List.length_append] at hperm
  have htext : ∀ (quote : String → String) (u : String) (d : Int),
      Line.render quote (lineOf (fetch fetcher u d)) =
        match (fetcher u).err with
        | some msg => msg ++ "\n"
        | none => "found: " ++ u ++ " " ++ quote (fetcher u).body ++ "\n" := by
    intro quote u d
    cases herr : (fetcher u).err with
    | none => simp [lineOf, fetch, herr, Line.render]
    | some msg => simp [lineOf, fetch, herr, Line.render]
  refine ⟨hinv.out, ?_, ?_, ?_, ?_, ?_, ?_, ?_, ?_, ?_⟩
  · rw [hinv.out, List.length_map]
    omega
  · intro r hr
    exact ⟨hinv.outcome r hr, hinv.launch_of_consumed hr⟩
  · rw [hinv.out]
    exact hinv.consumed_nodup.sublist (foundUrls_sublist _)
  · intro i p s1 hp hs1
    obtain ⟨_, q, hq, hs⟩ := iteration_some hs1
    rw [hp] at hq
    cases hq
    rw [hs, process_stdout]
    rfl
  · intro hz
    have hc := hinv.counter
    constructor
    · rw [hinv.out, List.length_map]
      omega
    · intro l hl
      rw [hinv.out]
      exact List.mem_map_of_mem _ (hinv.consumed_at_exit hz hl)
  · intro s1 hs1
    rw [Crawl_of_loop h] at hs1
    split at hs1
    · exact absurd hs1 (by simp)
    · simp only [Option.some.injEq] at hs1
      rw [← hs1]
  · intro quote
    rw [hinv.out, List.map_map]
    apply List.map_congr_left
    intro r hr
    have hr1 := hinv.outcome r hr
    simp only [Function.comp_apply]
    rw [hr1]
    exact htext quote r.url r.depth
  · intro quote i p s1 hp hs1
    obtain ⟨_, q, hq, hs⟩ := iteration_some hs1
    rw [hp] at hq
    cases hq
    rw [hs, process_stdout, List.map_append, List.map_cons, List.map_nil, htext]
  · intro hz quote l hl
    rw [← htext quote l.url l.depth, hinv.out]
    exact List.mem_map_of_mem _ (List.mem_map_of_mem _ (hinv.consumed_at_exit hz hl))

theorem emission_witness :
    ∃ s, loop fetcher.Fetch (start "http://golang.org/" 1) [0, 1, 0] = some s ∧
      s.stdout = [Line.found "http://golang.org/" "The Go Programming Language",
        Line.diag "not found: http://golang.org/cmd/",
        Line.found "http://golang.org/pkg/" "Packages"] ∧
      s.stdout.length = [0, 1, 0].length ∧
      s.stdout.map (Line.render (fun b => "\"" ++ b ++ "\"")) =
        ["found: http://golang.org/ \"The Go Programming Language\"\n",
         "not found: http://golang.org/cmd/\n",
         "found: http://golang.org/pkg/ \"Packages\"\n"] ∧
      s.stdout.map (Line.render (fun b => "\"" ++ b ++ "\"")) =
        s.consumed.map (fun r =>
          match (fetcher.Fetch r.url).err with
          | some msg => msg ++ "\n"
          | none => "found: " ++ r.url ++ " " ++
              (fun b => "\"" ++ b ++ "\"") (fetcher.Fetch r.url).body ++ "\n") :=
  ⟨_, rfl, by decide,
    (emission fetcher.Fetch "http://golang.org/" 1 [0, 1, 0] _ rfl).2.1, by decide,
    (emission fetcher.Fetch "http://golang.org/" 1 [0, 1, 0] _ rfl).2.2.2.2.2.2.2.1
      (fun b => "\"" ++ b ++ "\"")⟩

/-- C9 (depth-1 crawl). For every fetcher whose fetch of the seed succeeds,
every complete run of `Crawl` with depth 1 dispatches exactly the seed and
then the outbound identifiers of the seed that differ from it, each once (in
the order of their first occurrence); the children are dispatched with depth
0 by the processing of the seed's outcome, and no dispatch comes from a
child; the first line is `found` for the seed and the other lines are the
children's lines in some order. -/
theorem depth_one_crawl (fetcher : Fetcher) (seed : String)
    (hok : (fetcher seed).err = none) (order : List Nat) (s : CrawlState)
    (h : Crawl seed 1 fetcher order = some s) :
    s.launches = seedLaunch seed 1 ::
      (keepFirst ((fetcher seed).urls.filter (fun u => u != seed))).map
        (childLaunch (fetch fetcher seed 1)) ∧
    s.launches.map Launch.key = (seed, 1) ::
      (keepFirst ((fetcher seed).urls.filter (fun u => u != seed))).map (fun u => (u, 0)) ∧
    (s.launches.map Launch.url).Nodup ∧
    (∀ u, u ∈ s.launches.map Launch.url ↔ u = seed ∨ u ∈ (fetcher seed).urls) ∧
    (∃ lines, s.stdout = Line.found seed (fetcher seed).body :: lines ∧
      lines.Perm ((keepFirst ((fetcher seed).urls.filter (fun u => u != seed))).map
        (fun u => lineOf (fetch fetcher u 0)))) ∧
    order.length = 1 + (keepFirst ((fetcher seed).urls.filter (fun u => u != seed))).length := by
  obtain ⟨s0, hs0, hz, hs⟩ := Crawl_some h
  have hinv := Inv.run hs0
  have hlen := loop_consumed_length order hs0
  have hc0 : (start seed 1).consumed.length = 0 := rfl
  have hyes : (fetch fetcher seed 1).err = none ∧ 0 < (fetch fetcher seed 1).depth :=
    ⟨hok, show (0 : Int) < 1 by decide⟩
  have hnov : novel (consume (fetch fetcher seed 1) 0 (start seed 1)).fetched
      (fetch fetcher seed 1).urls =
        keepFirst ((fetcher seed).urls.filter (fun u => u != seed)) := by
    simp only [novel, consume, start, dispatch, initial, fetch]
    congr 1
    apply List.filter_congr
    intro u _
    by_cases hu : u = seed
    · subst hu; simp [mapIndex, mapAssign, List.lookup_cons]
    · have hb : (u == seed) = false := by simpa using hu
      simp [mapIndex, mapAssign, List.lookup_cons, hb, hu]
  have hit : iteration fetcher (start seed 1) 0 =
      some (dispatched (fetch fetcher seed 1)
        (keepFirst ((fetcher seed).urls.filter (fun u => u != seed)))
        (consume (fetch fetcher seed 1) 0 (start seed 1))) := by
    rw [iteration_start, if_pos rfl, process_eq, if_pos hyes, follow_eq, hnov]
  cases order with
  | nil =>
    simp [loop, start, dispatch, initial] at hs0
    subst hs0
    simp at hz
  | cons i rest =>
    have hi : i = 0 := by
      by_contra hi
      simp [loop, iteration_start, hi] at hs0
    subst hi
    simp only [loop, hit] at hs0
    have hzero : ∀ p ∈ (dispatched (fetch fetcher seed 1)
        (keepFirst ((fetcher seed).urls.filter (fun u => u != seed)))
        (consume (fetch fetcher seed 1) 0 (start seed 1))).inflight, p.2 ≤ 0 := by
      intro p hp
      simp only [dispatched, consume, start, dispatch, initial, fetch] at hp
      simp at hp
      obtain ⟨u, _, rfl⟩ := hp
      simp
    have hl := loop_exhausted rest hzero hs0
    obtain ⟨extra, hex⟩ := loop_consumed rest hs0
    have hlaunch : s0.launches = seedLaunch seed 1 ::
        (keepFirst ((fetcher seed).urls.filter (fun u => u != seed))).map
          (childLaunch (fetch fetcher seed 1)) := by
      rw [hl]
      simp [dispatched, consume, start, dispatch, initial, seedLaunch, mapIndex]
    have hcons : s0.consumed = fetch fetcher seed 1 :: extra := by
      rw [hex]
      simp [dispatched, consume, start, dispatch, initial]
    have hkeys : s0.launches.map Launch.key = (seed, 1) ::
        (keepFirst ((fetcher seed).urls.filter (fun u => u != seed))).map
          (fun u => (u, 0)) := by
      rw [hlaunch]
      simp [Launch.key, seedLaunch, childLaunch, fetch, Function.comp_def]
    have hin : s0.inflight = [] := by
      have := hinv.counter
      rw [← List.length_eq_zero]
      omega
    have hperm := hinv.perm
    rw [hkeys, hin, List.append_nil, hcons] at hperm
    simp only [List.map_cons, result.key, fetch] at hperm
    have hperm1 := (List.perm_cons _).1 hperm
    have hextra : extra.map lineOf =
        (extra.map result.key).map (fun k => lineOf (fetch fetcher k.1 k.2)) := by
      rw [List.map_map]
      apply List.map_congr_left
      intro r hr
      have hr0 : r ∈ s0.consumed := by rw [hcons]; exact List.mem_cons_of_mem _ hr
      have := hinv.outcome r hr0
      simp only [Function.comp_apply, result.key]
      rw [← this]
    have hurls : s0.launches.map Launch.url =
        seed :: keepFirst ((fetcher seed).urls.filter (fun u => u != seed)) := by
      rw [hlaunch]
      simp [seedLaunch, childLaunch, Function.comp_def]
    have e1 : s.launches = s0.launches := by rw [hs]
    have e2 : s.stdout = s0.stdout := by rw [hs]
    rw [e1, e2]
    refine ⟨hlaunch, hkeys, hinv.nodup, ?_, ?_, ?_⟩
    · intro u
      rw [hurls]
      simp only [List.mem_cons, mem_keepFirst, List.mem_filter]
      by_cases hu : u = seed
      · simp [hu]
      · simp [hu]
    · refine ⟨extra.map lineOf, ?_, ?_⟩
      · rw [hinv.out, hcons]
        simp [lineOf, fetch, hok]
      · rw [hextra]
        have := hperm1.symm.map (fun k : String × Int => lineOf (fetch fetcher k.1 k.2))
        simpa [Function.comp_def] using this
    · have hpl := hinv.perm.length_eq
      simp only [List.length_map, List.length_append, hin, List.length_nil] at hpl
      have hll : s0.launches.length =
          1 + (keepFirst ((fetcher seed).urls.filter (fun u => u != seed))).length := by
        rw [hlaunch]
        simp
        omega
      omega

theorem depth_one_crawl_witness :
    (Crawl "A" 1 abc.Fetch [0, 0, 0]).map (fun s => s.stdout) =
      some [Line.found "A" "a", Line.found "B" "b", Line.found "C" "c"] ∧
    (Crawl "A" 1 abc.Fetch [0, 1, 0]).map (fun s => s.stdout) =
      some [Line.found "A" "a", Line.found "C" "c", Line.found "B" "b"] ∧
    ∃ s, Crawl "A" 1 abc.Fetch [0, 1, 0] = some s ∧
      s.launches.map Launch.key = [("A", 1), ("B", 0), ("C", 0)] :=
  ⟨by decide, by decide, _, rfl,
    (depth_one_crawl abc.Fetch "A" (by decide) [0, 1, 0] _ rfl).2.1⟩

/-- C10 (depth exhausted at the seed). For every fetcher and every depth
`≤ 0` the only complete run of `Crawl` has one iteration: `dispatch` is called
once, on the seed; the one line written is `found` for the seed or its
failure message; no outbound identifier is dispatched; the loop exits with
`fetching` 0 and the channel is closed. -/
theorem depth_exhausted (fetcher : Fetcher) (seed : String) (depth : Int)
    (hd : depth ≤ 0) :
    Crawl seed depth fetcher [0] = some
      { fetching := 0, fetched := [(seed, true)], inflight := [],
        stdout := [match (fetcher seed).err with
                   | some msg => Line.diag msg
                   | none => Line.found seed (fetcher seed).body],
        closed := true, launches := [seedLaunch seed depth],
        consumed := [fetch fetcher seed depth] } ∧
    ∀ order s, Crawl seed depth fetcher order = some s →
      order = [0] ∧ s.launches = [seedLaunch seed depth] ∧ s.stdout.length = 1 := by
  have hno : ¬ ((fetch fetcher seed depth).err = none ∧
      0 < (fetch fetcher seed depth).depth) := by
    intro hgo
    have : 0 < depth := hgo.2
    omega
  have hit : iteration fetcher (start seed depth) 0 =
      some (consume (fetch fetcher seed depth) 0 (start seed depth)) := by
    rw [iteration_start, if_pos rfl, process_eq, if_neg hno]
  have hstop : ∀ j, iteration fetcher
      (consume (fetch fetcher seed depth) 0 (start seed depth)) j = none := by
    intro j
    have : ¬ 0 < (consume (fetch fetcher seed depth) 0 (start seed depth)).fetching := by
      simp [consume, start, dispatch, initial]
    rw [iteration_eq, if_neg this]
  constructor
  · simp only [Crawl, loop, hit]
    simp [consume, start, dispatch, initial, mapAssign, seedLaunch, mapIndex]
    rfl
  · intro order s h
    cases order with
    | nil =>
      simp [Crawl, loop, start, dispatch, initial] at h
    | cons i rest =>
      by_cases hi : i = 0
      · subst hi
        cases rest with
        | nil =>
          simp only [Crawl, loop, hit] at h
          split at h
          · exact absurd h (by simp)
          · simp only [Option.some.injEq] at h
            subst h
            exact ⟨rfl, rfl, rfl⟩
        | cons j rest =>
          simp [Crawl, loop, hit, hstop] at h
      · simp [Crawl, loop, iteration_start, hi] at h

theorem depth_exhausted_witness :
    (0 : Int) ≤ 0 ∧
    (Crawl "A" 0 ab.Fetch [0]).map (fun s => (s.stdout, s.launches.map Launch.url)) =
      some ([Line.found "A" "a"], ["A"]) ∧
    ∀ order s, Crawl "A" 0 ab.Fetch order = some s →
      order = [0] ∧ s.launches = [seedLaunch "A" 0] ∧ s.stdout.length = 1 :=
  ⟨by decide, by decide, (depth_exhausted ab.Fetch "A" 0 (by decide)).2⟩

/-- C11 (unknown seed). For every depth, when the seed is not a key of the
`fakeFetcher` map, the only complete run of `Crawl` has one iteration: one
dispatch (one `Fetch`), on the seed; the output is the single line
`not found: ` followed by the seed, so no `found` line; the loop exits with
`fetching` 0. -/
theorem unknown_seed (f : fakeFetcher) (seed : String) (depth : Int)
    (hk : seed ∉ f.map Prod.fst) :
    Crawl seed depth f.Fetch [0] = some
      { fetching := 0, fetched := [(seed, true)], inflight := [],
        stdout := [Line.diag ("not found: " ++ seed)],
        closed := true, launches := [seedLaunch seed depth],
        consumed := [fetch f.Fetch seed depth] } ∧
    (∀ order s, Crawl seed depth f.Fetch order = some s →
      order = [0] ∧ s.launches = [seedLaunch seed depth] ∧
      s.stdout = [Line.diag ("not found: " ++ seed)] ∧ foundUrls s.stdout = [] ∧
      s.fetching = 0) ∧
    ∀ quote, Line.render quote (Line.diag ("not found: " ++ seed)) =
      "not found: " ++ seed ++ "\n" := by
  have hlk := (lookup_eq_none_iff_not_key f seed).2 hk
  have herr : (f.Fetch seed).err = some ("not found: " ++ seed) := by
    simp [fakeFetcher.Fetch, hlk]
  have hno : ¬ ((fetch f.Fetch seed depth).err = none ∧
      0 < (fetch f.Fetch seed depth).depth) := by
    intro hgo
    have h1 : (f.Fetch seed).err = none := hgo.1
    rw [herr] at h1
    exact absurd h1 (by simp)
  have hit : iteration f.Fetch (start seed depth) 0 =
      some (consume (fetch f.Fetch seed depth) 0 (start seed depth)) := by
    rw [iteration_start, if_pos rfl, process_eq, if_neg hno]
  have hstop : ∀ j, iteration f.Fetch
      (consume (fetch f.Fetch seed depth) 0 (start seed depth)) j = none := by
    intro j
    have : ¬ 0 < (consume (fetch f.Fetch seed depth) 0 (start seed depth)).fetching := by
      simp [consume, start, dispatch, initial]
    rw [iteration_eq, if_neg this]
  have hline : lineOf (fetch f.Fetch seed depth) = Line.diag ("not found: " ++ seed) := by
    simp [lineOf, fetch, herr]
  have hfinal : Crawl seed depth f.Fetch [0] = some
      { fetching := 0, fetched := [(seed, true)], inflight := [],
        stdout := [Line.diag ("not found: " ++ seed)],
        closed := true, launches := [seedLaunch seed depth],
        consumed := [fetch f.Fetch seed depth] } := by
    simp only [Crawl, loop, hit]
    simp [consume, start, dispatch, initial, mapAssign, seedLaunch, mapIndex, hline]
  refine ⟨hfinal, ?_, ?_⟩
  · intro order s h
    cases order with
    | nil =>
      simp [Crawl, loop, start, dispatch, initial] at h
    | cons i rest =>
      by_cases hi : i = 0
      · subst hi
        cases rest with
        | nil =>
          rw [hfinal] at h
          simp only [Option.some.injEq] at h
          subst h
          exact ⟨rfl, rfl, rfl, rfl, rfl⟩
        | cons j rest =>
          simp [Crawl, loop, hit, hstop] at h
      · simp [Crawl, loop, iteration_start, hi] at h
  · intro quote
    simp [Line.render]

theorem unknown_seed_witness :
    "X" ∉ abc.map Prod.fst ∧
    (Crawl "X" 3 abc.Fetch [0]).map (fun s => s.stdout) =
      some [Line.diag "not found: X"] ∧
    ∀ order s, Crawl "X" 3 abc.Fetch order = some s →
      order = [0] ∧ s.launches = [seedLaunch "X" 3] ∧
      s.stdout = [Line.diag ("not found: " ++ "X")] ∧ foundUrls s.stdout = [] ∧
      s.fetching = 0 :=
  ⟨by decide, by decide, (unknown_seed abc "X" 3 (by decide)).2.1⟩

/-- C12 (test double determinism). For every `fakeFetcher` map and every
identifier, a call of `Fetch` returns the body, url list and error of
`fakeFetcher.Fetch` and leaves the map `*f` as it was; two calls in a row
with the same identifier return the same three values; in every sequence of
calls each call returns what it returns on the first map, and the map is
unchanged at the end; and what a call returns depends on the map only
through the entry of its identifier. -/
theorem fake_fetch_deterministic (f : fakeFetcher) (url : String) :
    (fakeFetcher.FetchM url).run f =
      (((f.Fetch url).body, (f.Fetch url).urls, (f.Fetch url).err), f) ∧
    (fakeFetcher.FetchM url >>= fun a =>
      fakeFetcher.FetchM url >>= fun b => pure (a, b)).run f =
      ((((f.Fetch url).body, (f.Fetch url).urls, (f.Fetch url).err),
        ((f.Fetch url).body, (f.Fetch url).urls, (f.Fetch url).err)), f) ∧
    (∀ us : List String, (us.mapM fakeFetcher.FetchM).run f =
      (us.map (fun u => ((f.Fetch u).body, (f.Fetch u).urls, (f.Fetch u).err)), f)) ∧
    (∀ g : fakeFetcher, g.lookup url = f.lookup url →
      ((fakeFetcher.FetchM url).run g).1 = ((fakeFetcher.FetchM url).run f).1) := by
  have hone : ∀ (g : fakeFetcher) (u : String), (fakeFetcher.FetchM u).run g =
      (((g.Fetch u).body, (g.Fetch u).urls, (g.Fetch u).err), g) := by
    intro g u
    unfold fakeFetcher.FetchM fakeFetcher.Fetch commaOk
    cases hl : g.lookup u <;> simp [StateT.run, bind, StateT.bind, hl, pure, StateT.pure]
  refine ⟨hone f url, ?_, ?_, ?_⟩
  · simp only [StateT.run_bind, StateT.run_pure, hone]
    rfl
  · intro us
    induction us with
    | nil => rfl
    | cons u us ih =>
      rw [List.mapM_cons]
      simp only [StateT.run_bind, StateT.run_pure, hone]
      show (do
        let p ← StateT.run (List.mapM fakeFetcher.FetchM us) f
        (pure (((f.Fetch u).body, (f.Fetch u).urls, (f.Fetch u).err) :: p.1, p.2) : Id _)) = _
      rw [ih]
      rfl
  · intro g hg
    rw [hone g url, hone f url]
    simp only [fakeFetcher.Fetch, hg]

theorem fake_fetch_deterministic_witness :
    (fakeFetcher.FetchM "B" >>= fun a =>
      fakeFetcher.FetchM "B" >>= fun b => pure (a, b)).run abc =
      ((("b", ["A"], none), ("b", ["A"], none)), abc) ∧
    (fakeFetcher.FetchM "X" >>= fun a =>
      fakeFetcher.FetchM "X" >>= fun b => pure (a, b)).run abc =
      ((("", [], some "not found: X"), ("", [], some "not found: X")), abc) ∧
    ((assign "X" ({ body := "x", urls := [] } : fakeResult)).run abc).2 ≠ abc ∧
    (fakeFetcher.FetchM "B").run abc =
      ((((fakeFetcher.Fetch abc "B").body, (fakeFetcher.Fetch abc "B").urls,
        (fakeFetcher.Fetch abc "B").err)), abc) :=
  ⟨rfl, rfl, by decide, (fake_fetch_deterministic abc "B").1⟩

/-- C13 (visited set). At every loop head of every run of `Crawl` the keys
marked `true` in `fetched` are exactly the identifiers dispatched so far, one
entry each; their number is the number of dispatches, which is the number of
outcomes consumed plus `fetching`; and whatever the loop does afterwards,
the entries stay: the later map is the earlier one with entries added, and
every marked identifier stays marked. -/
theorem visited_set (fetcher : Fetcher) (seed : String) (depth : Int)
    (order : List Nat) (s : CrawlState)
    (h : loop fetcher (start seed depth) order = some s) :
    (∀ u, mapIndex s.fetched u = true ↔ u ∈ s.launches.map Launch.url) ∧
    s.fetched.map Prod.fst = (s.launches.map Launch.url).reverse ∧
    (∀ e ∈ s.fetched, e.2 = true) ∧
    (s.fetched.map Prod.fst).Nodup ∧
    ((s.fetched.filter (fun e => e.2)).length : Int) = (s.launches.length : Int) ∧
    ((s.fetched.filter (fun e => e.2)).length : Int) =
      (s.consumed.length : Int) + s.fetching ∧
    (∀ rest s1, loop fetcher s rest = some s1 →
      (∃ extra, s1.fetched = extra ++ s.fetched) ∧
      ∀ u, mapIndex s.fetched u = true → mapIndex s1.fetched u = true) := by
  have hinv := Inv.run h
  have hf := fetched_eq_launches h
  have hkeys : s.fetched.map Prod.fst = (s.launches.map Launch.url).reverse := by
    rw [hf, ← List.map_reverse, ← List.map_reverse, List.map_map]
    rfl
  have hall : ∀ e ∈ s.fetched, e.2 = true := by
    intro e he
    rw [hf] at he
    simp only [List.mem_reverse, List.mem_map] at he
    obtain ⟨l, _, rfl⟩ := he
    rfl
  have hfil : s.fetched.filter (fun e => e.2) = s.fetched := by
    rw [List.filter_eq_self]
    exact hall
  have hlen : s.fetched.length = s.launches.length := by
    rw [hf]; simp
  have hperm := hinv.perm.length_eq
  simp only [List.length_map, List.length_append] at hperm
  have hc := hinv.counter
  refine ⟨hinv.marks, hkeys, hall, ?_, ?_, ?_, ?_⟩
  · rw [hkeys]
    exact List.nodup_reverse.2 hinv.nodup
  · rw [hfil, hlen]
  · rw [hfil, hlen]
    omega
  · intro rest s1 h1
    have h2 : loop fetcher (start seed depth) (order ++ rest) = some s1 := by
      rw [loop_append, h]
      exact h1
    have hf1 := fetched_eq_launches h2
    obtain ⟨extra, hex⟩ := loop_launches rest h1
    constructor
    · refine ⟨(extra.map (fun l => (l.url, true))).reverse, ?_⟩
      rw [hf1, hf, hex, List.map_append, List.reverse_append]
    · intro u hu
      rw [(Inv.run h2).marks u, hex, List.map_append]
      exact List.mem_append_left _ ((hinv.marks u).1 hu)

theorem visited_set_witness :
    ∃ s, loop abc.Fetch (start "A" 1) [0, 1] = some s ∧
      s.fetched = [("C", true), ("B", true), ("A", true)] ∧
      ((s.fetched.filter (fun e => e.2)).length : Int) = (s.consumed.length : Int) + s.fetching :=
  ⟨_, rfl, by decide, (visited_set abc.Fetch "A" 1 [0, 1] _ rfl).2.2.2.2.2.1⟩

/-- C14 (causal order). After the first `dispatch`, `fetching` is 1 and the
marked identifiers are exactly the seed.  In every run of `Crawl` the first
outcome consumed is the seed's; every other outcome consumed belongs to a
call of `dispatch` made while processing an outcome consumed before it, which
is successful, has positive depth and lists the identifier; and the `found`
line of that parent stands in the output before the line of the child. -/
theorem causal_order (fetcher : Fetcher) (seed : String) (depth : Int)
    (order : List Nat) (s : CrawlState)
    (h : loop fetcher (start seed depth) order = some s) :
    (start seed depth).fetching = 1 ∧
    (start seed depth).fetched = [(seed, true)] ∧
    (∀ u, mapIndex (start seed depth).fetched u = true ↔ u = seed) ∧
    (∀ r rest, s.consumed = r :: rest → r = fetch fetcher seed depth) ∧
    (∀ pre r post, s.consumed = pre ++ r :: post → pre ≠ [] →
      ∃ r0 ∈ pre, r0.err = none ∧ 0 < r0.depth ∧ r.depth = r0.depth - 1 ∧
        r.url ∈ r0.urls ∧
        (∃ l ∈ s.launches, l.url = r.url ∧ l.depth = r.depth ∧ l.parent = some r0) ∧
        s.stdout = pre.map lineOf ++ lineOf r :: post.map lineOf ∧
        Line.found r0.url r0.body ∈ pre.map lineOf) := by
  have hinv := Inv.run h
  have hc := causal_run h
  refine ⟨rfl, rfl, ?_, ?_, ?_⟩
  · intro u
    have := (@Inv.start fetcher seed depth).marks u
    rw [this]
    simp [start, dispatch, initial]
  · intro r rest hr
    rcases hc.earlier [] r rest (by simpa using hr) with h1 | h1
    · exact h1.2
    · exact absurd rfl h1.1
  · intro pre r post hsplit hne
    rcases hc.earlier pre r post hsplit with h1 | ⟨_, r0, hr0, herr, hpos, hd, hu, l, hl, hk, hpar⟩
    · exact absurd h1.1 hne
    · refine ⟨r0, hr0, herr, hpos, hd, hu, ⟨l, hl, congrArg Prod.fst hk, congrArg Prod.snd hk,
        hpar⟩, ?_, ?_⟩
      · rw [hinv.out, hsplit]
        simp
      · have : lineOf r0 = Line.found r0.url r0.body := by simp [lineOf, herr]
        rw [← this]
        exact List.mem_map_of_mem _ hr0

theorem causal_order_witness :
    ∃ s, loop abc.Fetch (start "A" 1) [0, 1, 0] = some s ∧
      s.consumed.map result.url = ["A", "C", "B"] ∧
      ∀ r rest, s.consumed = r :: rest → r = fetch abc.Fetch "A" 1 :=
  ⟨_, rfl, by decide, (causal_order abc.Fetch "A" 1 [0, 1, 0] _ rfl).2.2.2.1⟩

/-- C15 (reachability soundness). At every loop head of every run of `Crawl`
with a depth `≥ 0`, an identifier dispatched with recorded depth `d` is the
end of a link path from the seed of exactly `depth - d` links, every earlier
node of which has a consumed outcome without error, so is a path of the
graph of the fetcher; the length is at most the depth, so every fetched
identifier lies within `depth` links of the seed. -/
theorem reachability_sound (fetcher : Fetcher) (seed : String) (depth : Int)
    (hd : 0 ≤ depth) (order : List Nat) (s : CrawlState)
    (h : loop fetcher (start seed depth) order = some s) :
    ∀ l ∈ s.launches, ∃ n : Nat, (n : Int) = depth - l.depth ∧ (n : Int) ≤ depth ∧
      Trail s.consumed seed n l.url ∧ Path fetcher seed n l.url := by
  intro l hl
  have hinv := Inv.run h
  obtain ⟨n, hn, ht⟩ := trail_run h l hl
  have := (hinv.range l hl).2 hd
  exact ⟨n, hn, by omega, ht, ht.path hinv.outcome⟩

theorem reachability_sound_witness :
    ∃ s, loop diamond.Fetch (start "S" 3) [0, 0, 0, 0] = some s ∧
      s.launches.map Launch.key = [("S", 3), ("A", 2), ("B", 2), ("C", 1), ("D", 1)] ∧
      ∀ l ∈ s.launches, ∃ n : Nat, (n : Int) = 3 - l.depth ∧ (n : Int) ≤ 3 ∧
        Trail s.consumed "S" n l.url ∧ Path diamond.Fetch "S" n l.url :=
  ⟨_, rfl, by decide, reachability_sound diamond.Fetch "S" 3 (by decide) [0, 0, 0, 0] _ rfl⟩

/-- C16 (arrival-order dependence). For the graph `diamond`, which has no
failing identifier, seed `S` and depth 3, the complete runs of `Crawl` under
two arrival orders fetch different sets of identifiers: `E`, three links from
the seed, is fetched when the outcome of `B` is consumed before that of `C`,
and is not when `C` comes before `B`, because `D` is then first dispatched
with depth 0 through the longer path.  Hence a fetcher, a seed, a depth and
two arrival orders with different sets of fetched identifiers exist. -/
theorem order_dependence :
    (∀ e ∈ diamond, ∀ u ∈ e.2.urls, u ∈ diamond.map Prod.fst) ∧
    (∀ u ∈ diamond.map Prod.fst, (diamond.Fetch u).err = none) ∧
    Path diamond.Fetch "S" 3 "E" ∧
    (∃ s1 s2,
      Crawl "S" 3 diamond.Fetch [0, 0, 0, 0, 0, 0] = some s1 ∧
      Crawl "S" 3 diamond.Fetch [0, 0, 1, 0, 0] = some s2 ∧
      s1.consumed.map result.key =
        [("S", 3), ("A", 2), ("B", 2), ("C", 1), ("D", 1), ("E", 0)] ∧
      s2.consumed.map result.key =
        [("S", 3), ("A", 2), ("C", 1), ("B", 2), ("D", 0)] ∧
      "E" ∈ s1.launches.map Launch.url ∧ "E" ∉ s2.launches.map Launch.url) ∧
    (∃ (fetcher : Fetcher) (seed : String) (depth : Int) (o1 o2 : List Nat)
        (s1 s2 : CrawlState) (u : String) (n : Nat),
      Crawl seed depth fetcher o1 = some s1 ∧ Crawl seed depth fetcher o2 = some s2 ∧
      (n : Int) ≤ depth ∧ Path fetcher seed n u ∧
      u ∈ s1.launches.map Launch.url ∧ u ∉ s2.launches.map Launch.url ∧
      ∀ r ∈ s1.consumed ++ s2.consumed, r.err = none) := by
  have hpath : Path diamond.Fetch "S" 3 "E" := by
    have h0 : Path diamond.Fetch "S" 0 "S" := Path.seed
    have h1 : Path diamond.Fetch "S" 1 "B" := Path.link h0 (by decide) (by decide)
    have h2 : Path diamond.Fetch "S" 2 "D" := Path.link h1 (by decide) (by decide)
    exact Path.link h2 (by decide) (by decide)
  refine ⟨by decide, by decide, hpath, ⟨_, _, rfl, rfl, by decide, by decide, by decide,
    by decide⟩, ?_⟩
  exact ⟨diamond.Fetch, "S", 3, [0, 0, 0, 0, 0, 0], [0, 0, 1, 0, 0], _, _, "E", 3, rfl, rfl,
    by decide, hpath, by decide, by decide, by decide⟩

/-- C17 (a run in dispatch order is a breadth-first search). For every
fetcher, seed and depth `≥ 0` the run of `Crawl` in which outcomes are
consumed in the order of their dispatch is complete after finitely many
iterations, and in it: the dispatches, with their depths, are the levels of
the breadth-first search `bfs` from the seed down to `depth` links, in order;
outcomes are consumed and lines written in that same order; the identifiers
fetched are exactly those at the end of a link path of at most `depth` links
from the seed through successfully fetched pages; and each is dispatched with
depth `depth` minus the length of its shortest such path. -/
theorem fifo_is_bfs (fetcher : Fetcher) (seed : String) (depth : Int) (hd : 0 ≤ depth) :
    (∃ n s, Crawl seed depth fetcher (fifo n) = some s) ∧
    ∀ n s, Crawl seed depth fetcher (fifo n) = some s →
      s.launches.map Launch.key = levelKeys depth (bfs fetcher seed depth.toNat) ∧
      s.consumed.map result.key = levelKeys depth (bfs fetcher seed depth.toNat) ∧
      s.stdout = (levelKeys depth (bfs fetcher seed depth.toNat)).map
        (fun k => lineOf (fetch fetcher k.1 k.2)) ∧
      (∀ u, u ∈ s.launches.map Launch.url ↔
        ∃ j : Nat, (j : Int) ≤ depth ∧ Path fetcher seed j u) ∧
      (∀ l ∈ s.launches, ∃ k : Nat, Dist fetcher seed k l.url ∧
        l.depth = depth - (k : Int)) := by
  have hcast : ((depth.toNat : Nat) : Int) = depth := Int.toNat_of_nonneg hd
  have hstart : (start seed depth).inflight =
      [seed].map (fun v => (v, ((depth.toNat : Nat) : Int))) := by
    rw [hcast]; rfl
  obtain ⟨m, s1, hl, hinv1, hin, hla, hco⟩ :=
    @fifo_levels fetcher seed depth depth.toNat [seed] (start seed depth) Inv.start hstart
  have hbfs : levelKeys depth (bfs fetcher seed depth.toNat) =
      [(seed, depth)] ++ levelKeys (depth - 1)
        (bfsLevels fetcher depth.toNat [seed] [seed]).tail := by
    unfold bfs
    conv_lhs => rw [bfsLevels_eq_cons, levelKeys_cons]
    rfl
  have hurl0 : (start seed depth).launches.map Launch.url = [seed] := rfl
  have hkey0 : (start seed depth).launches.map Launch.key = [(seed, depth)] := rfl
  have hcon0 : (start seed depth).consumed.map result.key = [] := rfl
  rw [hurl0, hkey0, hcast] at hla
  rw [hurl0, hcon0, hcast, List.nil_append] at hco
  rw [← hbfs] at hla
  have hco : s1.consumed.map result.key = levelKeys depth (bfs fetcher seed depth.toNat) :=
    hco
  have hz : ¬ 0 < s1.fetching := by
    have := hinv1.counter
    rw [hin] at this
    simp at this
    omega
  have hkeys : ∀ u d, (u, d) ∈ s1.launches.map Launch.key ↔
      ∃ j : Nat, j ≤ depth.toNat ∧ d = depth - (j : Int) ∧ Dist fetcher seed j u := by
    intro u d
    rw [hla]
    exact mem_levelKeys_bfs fetcher seed depth.toNat depth u d
  have hout : s1.stdout = (levelKeys depth (bfs fetcher seed depth.toNat)).map
      (fun k => lineOf (fetch fetcher k.1 k.2)) := by
    rw [hinv1.out, ← hco, List.map_map]
    apply List.map_congr_left
    intro r hr
    have := hinv1.outcome r hr
    simp only [Function.comp_apply, result.key]
    rw [← this]
  have hall : s1.launches.map Launch.key = levelKeys depth (bfs fetcher seed depth.toNat) ∧
      s1.consumed.map result.key = levelKeys depth (bfs fetcher seed depth.toNat) ∧
      s1.stdout = (levelKeys depth (bfs fetcher seed depth.toNat)).map
        (fun k => lineOf (fetch fetcher k.1 k.2)) ∧
      (∀ u, u ∈ s1.launches.map Launch.url ↔
        ∃ j : Nat, (j : Int) ≤ depth ∧ Path fetcher seed j u) ∧
      (∀ l ∈ s1.launches, ∃ k : Nat, Dist fetcher seed k l.url ∧
        l.depth = depth - (k : Int)) := by
    refine ⟨hla, hco, hout, ?_, ?_⟩
    · intro u
      constructor
      · intro hu
        obtain ⟨l, hl1, rfl⟩ := List.mem_map.1 hu
        have hk : (l.url, l.depth) ∈ s1.launches.map Launch.key :=
          List.mem_map.2 ⟨l, hl1, rfl⟩
        obtain ⟨j, hj, _, hdist⟩ := (hkeys _ _).1 hk
        exact ⟨j, by omega, hdist.1⟩
      · rintro ⟨j, hj, hp⟩
        obtain ⟨k, hk, hdist⟩ := Path.dist j hp
        have hmem := (hkeys u (depth - (k : Int))).2 ⟨k, by omega, rfl, hdist⟩
        obtain ⟨l, hl1, hlk⟩ := List.mem_map.1 hmem
        exact List.mem_map.2 ⟨l, hl1, congrArg Prod.fst hlk⟩
    · intro l hl1
      have hk : (l.url, l.depth) ∈ s1.launches.map Launch.key :=
        List.mem_map.2 ⟨l, hl1, rfl⟩
      obtain ⟨j, _, hdj, hdist⟩ := (hkeys _ _).1 hk
      exact ⟨j, hdist, hdj⟩
  constructor
  · exact ⟨m, _, by rw [Crawl_of_loop hl, if_neg hz]⟩
  · intro n s hs
    obtain ⟨s0, hs0, hz0, hs2⟩ := Crawl_some hs
    have heq := fifo_unique m n (start seed depth) s1 s0 hl hz hs0 hz0
    subst heq
    have e1 : s.launches = s1.launches := by rw [hs2]
    have e2 : s.consumed = s1.consumed := by rw [hs2]
    have e3 : s.stdout = s1.stdout := by rw [hs2]
    rw [e1, e2, e3]
    exact hall

theorem fifo_is_bfs_witness :
    (0 : Int) ≤ 3 ∧
    levelKeys 3 (bfs diamond.Fetch "S" 3) =
      [("S", 3), ("A", 2), ("B", 2), ("C", 1), ("D", 1), ("E", 0)] ∧
    ∃ s, Crawl "S" 3 diamond.Fetch (fifo 6) = some s ∧
      s.launches.map Launch.key = levelKeys 3 (bfs diamond.Fetch "S" (3 : Int).toNat) ∧
      s.stdout = [Line.found "S" "s", Line.found "A" "a", Line.found "B" "b",
        Line.found "C" "c", Line.found "D" "d", Line.found "E" "e"] :=
  ⟨by decide, by decide, _, rfl,
    ((fifo_is_bfs diamond.Fetch "S" 3 (by decide)).2 6 _ rfl).1, by decide⟩

end Crawler
